import Mathlib

/-!
Shallow embedding of the listing-pack generation core of
`etsy-listing-sprint-assistant` (`src/listing.ts`), together with proofs of
the specification claims about it.

JavaScript strings are modelled as lists of code points (`List Nat`); JS
dynamic values reaching the sanitizer are modelled by `JsValue`; fallible
operations return `Except JsErr`.
-/

set_option maxHeartbeats 1000000
set_option maxRecDepth 8000

abbrev Str := List Nat

/-- Code points of a Lean string literal, used to write concrete inputs. -/
def str (s : String) : Str := s.toList.map Char.toNat

/-- JS whitespace (the ASCII part relevant here): matches the `\s` class and
`String.prototype.trim` on the code points our claims quantify over. -/
def isWs (c : Nat) : Bool := c == 32 || c == 9 || c == 10 || c == 11 || c == 12 || c == 13

/-- `toLowerCase` on one code point (ASCII case mapping). -/
def lc (c : Nat) : Nat := if 65 ≤ c ∧ c ≤ 90 then c + 32 else c

/-- `toUpperCase` on one code point (ASCII case mapping). -/
def ucChar (c : Nat) : Nat := if 97 ≤ c ∧ c ≤ 122 then c - 32 else c

/-- `toLowerCase` on a string. -/
def lcs (s : Str) : Str := s.map lc

/-- `value.trim()`: remove leading and trailing whitespace. -/
def jsTrim (s : Str) : Str :=
  ((s.dropWhile isWs).reverse.dropWhile isWs).reverse

/-- Worker for `.replace(/\s+/g, " ")`: `prevWs` records whether the previous
kept character position was inside a whitespace run. -/
def collapseGo (prevWs : Bool) : Str → Str
  | [] => []
  | c :: s =>
    if isWs c then
      if prevWs then collapseGo true s else 32 :: collapseGo true s
    else c :: collapseGo false s

/-- `value.replace(/\s+/g, " ")`: collapse every whitespace run to one space. -/
def collapseWs (s : Str) : Str := collapseGo false s

/-- Characters kept by `.replace(/[^a-z0-9&\-\s]/gi, "")`. -/
def isAllowed (c : Nat) : Bool :=
  (97 ≤ c && c ≤ 122) || (65 ≤ c && c ≤ 90) || (48 ≤ c && c ≤ 57) ||
    c == 38 || c == 45 || isWs c

/-- `normalizeKeyword` from `listing.ts`:
`value.trim().toLowerCase().replace(/[^a-z0-9&\-\s]/gi, "").replace(/\s+/g, " ").trim()`. -/
def normalizeKeyword (s : Str) : Str :=
  jsTrim (collapseWs (List.filter isAllowed (lcs (jsTrim s))))

/-- Split a string at every separator character (JS `String.prototype.split`
with a single-character class: adjacent separators yield empty pieces, and
the empty string yields one empty piece). -/
def splitBy (sep : Nat → Bool) : Str → List Str
  | [] => [[]]
  | c :: s =>
    if sep c then [] :: splitBy sep s
    else
      match splitBy sep s with
      | [] => [[c]]
      | t :: ts => (c :: t) :: ts

/-- `arr.join(" ")`. -/
def joinSp : List Str → Str
  | [] => []
  | [x] => x
  | x :: y :: ys => x ++ 32 :: joinSp (y :: ys)

/-- `word.charAt(0).toUpperCase() + word.slice(1)`. -/
def capitalize : Str → Str
  | [] => []
  | c :: s => ucChar c :: s

/-- `toTitleCase` from `listing.ts`. -/
def toTitleCase (s : Str) : Str :=
  joinSp (List.map capitalize (List.filter (fun w => !w.isEmpty) (splitBy (fun c => c == 32) s)))

/-!  `String.prototype.replace` with a global, case-insensitive literal
pattern.  `replAux` scans the subject structurally; `skip` counts characters
of the subject still to be consumed by the match just emitted. -/

def replAux (tst : Str → Bool) (skipLen : Nat) (r : Str) : Nat → Str → Str
  | _, [] => []
  | Nat.succ k, _ :: s => replAux tst skipLen r k s
  | 0, c :: s =>
    if tst (c :: s) then r ++ replAux tst skipLen r skipLen s
    else c :: replAux tst skipLen r 0 s

/-- Case-sensitive global leftmost replacement of the literal pattern `p`
by `r` (used on already-lowercased strings). -/
def replace (p r s : Str) : Str :=
  replAux (fun t => !p.isEmpty && p.isPrefixOf t) (p.length - 1) r 0 s

/-- Case-insensitive global leftmost replacement (`/p/gi` with a literal
lowercase pattern `p`). -/
def replaceCI (p r s : Str) : Str :=
  replAux (fun t => !p.isEmpty && (lcs p).isPrefixOf (lcs t)) (p.length - 1) r 0 s

/-- `britishSpelling` from `listing.ts`. -/
def britishSpelling (value : Str) (enabled : Bool) : Str :=
  if enabled then
    replaceCI (str "organize") (str "organise")
      (replaceCI (str "personalization") (str "personalisation")
        (replaceCI (str "customization") (str "customisation")
          (replaceCI (str "favorite") (str "favourite")
            (replaceCI (str "color") (str "colour") value))))
  else value

/-! ## The dynamic data model of the sanitizer

`sanitizeListingInput` is typed against `ListingInput` in TypeScript, but the
claims speak about raw (possibly mistyped) runtime values, so its input is
modelled as a record of dynamic JS values.  A failure is either a
field-scoped `invalid_<field>` error thrown by the code itself, or the
`TypeError` the JS runtime raises when a string method is called on a
non-string. -/

inductive JsValue where
  | jstr (s : Str)
  | jnum (n : Int)
  | jbool (b : Bool)
  | jnull
  | jarr (items : List JsValue)

inductive JsErr where
  | code (msg : Str)
  | typeErr
  deriving DecidableEq

inductive Tone where
  | playful | minimal | luxury | warm
  deriving DecidableEq

structure ListingInput where
  shopName : Str
  productType : Str
  targetAudience : Str
  primaryKeyword : Str
  supportingKeywords : List Str
  materials : List Str
  tone : Tone
  priceBand : Str
  processingTimeDays : Int
  personalization : Bool
  includeUkSpelling : Bool
  deriving DecidableEq

structure RawInput where
  shopName : JsValue
  productType : JsValue
  targetAudience : JsValue
  primaryKeyword : JsValue
  supportingKeywords : JsValue
  materials : JsValue
  tone : JsValue
  priceBand : JsValue
  processingTimeDays : JsValue
  personalization : JsValue
  includeUkSpelling : JsValue

/-- The error `` `invalid_${key}` ``. -/
def invalidCode (key : String) : JsErr := JsErr.code (str ("invalid_" ++ key))

/-- `normalizePhrase` from `listing.ts`; a non-string value hits `.trim()`
and raises a `TypeError`. -/
def normalizePhrase (v : JsValue) (key : String) (maxLength : Nat) : Except JsErr Str :=
  match v with
  | JsValue.jstr s =>
    let trimmed := collapseWs (jsTrim s)
    if trimmed.isEmpty || decide (maxLength < trimmed.length) then Except.error (invalidCode key)
    else Except.ok trimmed
  | _ => Except.error JsErr.typeErr

/-- `normalizeBoolean`: `value === true`. -/
def normalizeBoolean : JsValue → Bool
  | JsValue.jbool true => true
  | _ => false

instance {ε α : Type} [DecidableEq ε] [DecidableEq α] : DecidableEq (Except ε α) := fun x y =>
  match x, y with
  | Except.ok a, Except.ok b =>
    if h : a = b then isTrue (by rw [h]) else isFalse (fun hh => h (Except.ok.injEq .. ▸ hh))
  | Except.error a, Except.error b =>
    if h : a = b then isTrue (by rw [h]) else isFalse (fun hh => h (Except.error.injEq .. ▸ hh))
  | Except.ok _, Except.error _ => isFalse (fun hh => Except.noConfusion hh)
  | Except.error _, Except.ok _ => isFalse (fun hh => Except.noConfusion hh)

/-- `normalizeDays`: `Number.isInteger` is false for every non-number. -/
def normalizeDays (v : JsValue) : Except JsErr Int :=
  match v with
  | JsValue.jnum n =>
    if n < 1 ∨ 45 < n then Except.error (invalidCode "processingTimeDays") else Except.ok n
  | _ => Except.error (invalidCode "processingTimeDays")

/-- `normalizeTone` from `listing.ts`; a non-string value hits `.trim()`
and raises a `TypeError`. -/
def normalizeTone (v : JsValue) : Except JsErr Tone :=
  match v with
  | JsValue.jstr s =>
    let t := lcs (jsTrim s)
    if t = str "playful" then Except.ok Tone.playful
    else if t = str "minimal" then Except.ok Tone.minimal
    else if t = str "luxury" then Except.ok Tone.luxury
    else if t = str "warm" then Except.ok Tone.warm
    else Except.error (invalidCode "tone")
  | _ => Except.error JsErr.typeErr

/-- The loop body of `dedupePhrases`: walk the raw entries, keeping the
first-seen normalized forms, stopping once `maxCount` are collected. -/
def dedupeGo (key : String) (maxCount : Nat) : List JsValue → List Str → Except JsErr (List Str)
  | [], acc => Except.ok acc
  | v :: rest, acc =>
    match v with
    | JsValue.jstr s =>
      let n := normalizeKeyword s
      if n.isEmpty || n ∈ acc then dedupeGo key maxCount rest acc
      else
        let acc' := acc ++ [n]
        if maxCount ≤ acc'.length then Except.ok acc' else dedupeGo key maxCount rest acc'
    | _ => Except.error (invalidCode key)

/-- `dedupePhrases` from `listing.ts`. -/
def dedupePhrases (v : JsValue) (maxCount : Nat) (key : String) : Except JsErr (List Str) :=
  match v with
  | JsValue.jarr items => dedupeGo key maxCount items []
  | _ => Except.error (invalidCode key)

/-- `sanitizeListingInput` from `listing.ts`, with validation steps in
source order. -/
def sanitizeListingInput (input : RawInput) : Except JsErr ListingInput := do
  let shopName ← normalizePhrase input.shopName "shopName" 80
  let productType0 ← normalizePhrase input.productType "productType" 80
  let productType := lcs productType0
  let targetAudience0 ← normalizePhrase input.targetAudience "targetAudience" 80
  let targetAudience := lcs targetAudience0
  let primaryKeyword0 ← normalizePhrase input.primaryKeyword "primaryKeyword" 80
  let primaryKeyword := normalizeKeyword primaryKeyword0
  if primaryKeyword.isEmpty then
    Except.error (invalidCode "primaryKeyword")
  else do
    let supportingKeywords ← dedupePhrases input.supportingKeywords 16 "supportingKeywords"
    if supportingKeywords.isEmpty then
      Except.error (invalidCode "supportingKeywords")
    else do
      let materials ← dedupePhrases input.materials 12 "materials"
      let tone ← normalizeTone input.tone
      let priceBand ← normalizePhrase input.priceBand "priceBand" 80
      let processingTimeDays ← normalizeDays input.processingTimeDays
      let personalization := normalizeBoolean input.personalization
      let includeUkSpelling := normalizeBoolean input.includeUkSpelling
      Except.ok {
        shopName := shopName
        productType := productType
        targetAudience := targetAudience
        primaryKeyword := primaryKeyword
        supportingKeywords := supportingKeywords
        materials := materials
        tone := tone
        priceBand := priceBand
        processingTimeDays := processingTimeDays
        personalization := personalization
        includeUkSpelling := includeUkSpelling }

/-- The pieces of a keyword CSV after splitting on `/[\n,]/`, normalizing,
and dropping empties (the local `values` of `parseKeywordCsv`). -/
def csvPieces (s : Str) : List Str :=
  List.filter (fun v => !v.isEmpty)
    (List.map normalizeKeyword (splitBy (fun c => c == 10 || c == 44) s))

/-- `parseKeywordCsv` from `listing.ts` (the input is a string by its
TypeScript signature, so the `typeof` guard is a no-op). -/
def parseKeywordCsv (csvText : Str) : Except JsErr (List Str) :=
  let values := csvPieces csvText
  if values.isEmpty then Except.error (invalidCode "keywordsCsv")
  else dedupeGo "supportingKeywords" 16 (values.map JsValue.jstr) []

/-- `parseMaterialsCsv` from `listing.ts`. -/
def parseMaterialsCsv (csvText : Str) : Except JsErr (List Str) :=
  dedupeGo "materials" 12 ((csvPieces csvText).map JsValue.jstr) []

/-! ## The pack builder -/

/-- `pushTag` from `listing.ts` (returning the updated list). -/
def pushTag (tags : List Str) (candidate : Str) : List Str :=
  let normalized := normalizeKeyword candidate
  if normalized.isEmpty then tags
  else if 20 < normalized.length then tags
  else if normalized ∈ tags then tags
  else if 13 ≤ tags.length then tags
  else tags ++ [normalized]

/-- The fixed fallback tag phrases. -/
def fallbackTags : List Str :=
  [str "small business", str "handmade", str "gift for her", str "gift for him",
   str "home decor", str "custom order"]

/-- `buildTags` from `listing.ts`. -/
def buildTags (input : ListingInput) : List Str :=
  let basePool : List Str :=
    [input.primaryKeyword] ++ input.supportingKeywords ++
      [input.productType ++ str " gift",
       input.targetAudience ++ str " gift",
       input.productType,
       input.targetAudience,
       (if input.personalization then str "personalized gift" else str "ready to ship"),
       str "etsy seller"]
  let tags1 := List.foldl pushTag [] basePool
  let words := List.filter (fun w => 3 ≤ w.length) (splitBy (fun c => c == 32) input.primaryKeyword)
  let tags2 := List.foldl
    (fun ts w => pushTag (pushTag (pushTag ts w) (w ++ str " decor")) (w ++ str " idea"))
    tags1 words
  let tags3 := List.foldl pushTag tags2 fallbackTags
  tags3.take 13

/-- The loop of `compactTitle`: keep joining segments with `" | "` while the
joined string stays within 140 characters; `break` on the first overflow. -/
def compactLoop (title : Str) : List Str → Str
  | [] => title
  | p :: ps =>
    let candidate := if title.isEmpty then p else title ++ str " | " ++ p
    if 140 < candidate.length then title else compactLoop candidate ps

/-- `compactTitle` from `listing.ts`. -/
def compactTitle (parts : List Str) : Str :=
  let filtered := List.filter (fun p => !p.isEmpty) (parts.map jsTrim)
  let title := compactLoop [] filtered
  if !title.isEmpty then title
  else match filtered with
    | [] => str "Etsy listing"
    | p :: _ => p

/-- `toneLine` from `listing.ts`. -/
def toneLine : Tone → Str
  | Tone.playful => str "written with energetic, friendly language and quick-read rhythm"
  | Tone.minimal => str "kept clean, concise, and practical for fast scanning"
  | Tone.luxury => str "framed with premium cues and elevated craftsmanship language"
  | Tone.warm => str "balanced for warmth, clarity, and trust"

/-- The name of a tone as interpolated into templates. -/
def toneName : Tone → Str
  | Tone.playful => str "playful"
  | Tone.minimal => str "minimal"
  | Tone.luxury => str "luxury"
  | Tone.warm => str "warm"

/-- Decimal rendering of a natural number (JS template interpolation). -/
def natToStr (n : Nat) : Str := (Nat.toDigits 10 n).map Char.toNat

/-- Decimal rendering of an integer. -/
def intToStr (i : Int) : Str :=
  if i < 0 then 45 :: natToStr i.natAbs else natToStr i.natAbs

/-- `Math.max(0, Math.min(100, Math.round(value)))` on an integer score. -/
def roundScore (value : Int) : Int := max 0 (min 100 value)

/-- The score accumulated by `buildListingPack` before clamping. -/
def rawScore (input : ListingInput) : Int :=
  55 + min 20 ((buildTags input).length : Int) + min 8 (input.supportingKeywords.length : Int) +
    (if input.personalization then 7 else 4) +
    (if 3 ≤ input.materials.length then 6 else 2) +
    (if input.processingTimeDays ≤ 3 then 4 else 1)

structure ListingPack where
  generatedAt : Str
  score : Int
  title : Str
  tags : List Str
  highlights : List Str
  description : Str
  faq : List (Str × Str)
  photoShotList : List Str
  launchChecklist : List Str
  deriving DecidableEq

/-- `arr.join(", ")`. -/
def joinComma : List Str → Str
  | [] => []
  | [x] => x
  | x :: y :: ys => x ++ str ", " ++ joinComma (y :: ys)

/-- `arr.join(" ")` for sentences (same as `joinSp`). -/
def joinSentences : List Str → Str := joinSp

/-- `buildListingPack` from `listing.ts`.  The wall-clock timestamp
`new Date().toISOString()` is the explicit parameter `now`. -/
def buildListingPack (input : ListingInput) (now : Str) : ListingPack :=
  let uk := input.includeUkSpelling
  let title := compactTitle
    [toTitleCase input.primaryKeyword,
     toTitleCase input.productType,
     (if input.personalization then str "Personalized" else str "Ready to Ship"),
     str "Gift for " ++ toTitleCase input.targetAudience,
     toTitleCase (match input.supportingKeywords with
       | [] => str "Etsy Bestseller"
       | k :: _ => if k.isEmpty then str "Etsy Bestseller" else k)]
  let tags := buildTags input
  let toneDescriptor := toneLine input.tone
  let materialsLine :=
    if !input.materials.isEmpty then
      str "Materials include " ++ joinComma (input.materials.take 5) ++ str "."
    else str "Materials are selected for durability and consistent finish."
  let baseDescription := joinSentences
    [toTitleCase input.primaryKeyword ++ str " from " ++ input.shopName ++ str " is built for " ++
       input.targetAudience ++ str " buyers searching Etsy for a fast yes/no purchase decision.",
     str "The copy is " ++ toneDescriptor ++ str ", with a " ++ input.priceBand ++
       str " price anchor and " ++ intToStr input.processingTimeDays ++
       str "-day processing promise.",
     materialsLine,
     (if input.personalization then
        str "Personalization is highlighted in the first fold so buyers know exactly what can be customized before checkout."
      else
        str "The listing emphasizes ready-to-ship speed to reduce hesitation and increase conversion from search traffic."),
     str "Use the photo order and FAQ below as-is to keep listing production under 15 minutes."]
  let description := britishSpelling baseDescription uk
  let highlights := List.map (fun line => britishSpelling line uk)
    [toTitleCase input.primaryKeyword ++ str " headline tuned for Etsy search intent",
     natToStr tags.length ++ str " tags included with <=20 character constraint respected",
     str "Tone set to " ++ toneName input.tone ++ str " for consistent brand voice",
     intToStr input.processingTimeDays ++ str "-day processing expectation placed above the fold",
     (if input.personalization then str "Personalization CTA included in title and FAQ"
      else str "Fast dispatch angle included in title and FAQ")]
  let faq : List (Str × Str) :=
    [(str "How quickly can this order ship?",
      britishSpelling
        (str "Standard processing is " ++ intToStr input.processingTimeDays ++ str " day" ++
          (if input.processingTimeDays = 1 then [] else str "s") ++
          str ". Rush requests can be discussed in messages before purchase.") uk),
     ((if input.personalization then str "What personalization can I request?"
       else str "Can I request a custom variation?"),
      britishSpelling
        (if input.personalization then
          str "Include names, dates, or short text in the personalization field. A preview can be requested before production."
         else
          str "Yes. Message the shop before checkout with size, color, or packaging requests and we will confirm availability.") uk),
     (str "What should I include in my first product photo?",
      britishSpelling
        (str "Lead with a clean hero shot of the " ++ input.productType ++
          str ", then show scale, materials, and one lifestyle image for " ++
          input.targetAudience ++ str ".") uk)]
  let photoShotList := List.map (fun line => britishSpelling line uk)
    [toTitleCase input.productType ++ str " on plain background (hero image)",
     str "Close-up detail of texture and finish",
     (if input.personalization then str "Personalized sample with realistic name/date"
      else str "Ready-to-ship packaging and dispatch view"),
     str "Scale reference in hand or beside common object",
     toTitleCase input.targetAudience ++ str " lifestyle context shot",
     (if !input.materials.isEmpty then
        str "Materials flat lay: " ++ joinComma (input.materials.take 4)
      else str "Materials and components flat lay"),
     str "Color or variation comparison grid",
     str "Gift-ready final presentation"]
  let launchChecklist := List.map (fun line => britishSpelling line uk)
    [str "Upload all 8 photos before publishing",
     str "Keep first 40 title characters keyword-dense",
     str "Place shipping timeline in description paragraph 1",
     str "Pin one buyer FAQ in shop announcement",
     str "Track clicks and favorites after 24 hours"]
  { generatedAt := now
    score := roundScore (rawScore input)
    title := britishSpelling title uk
    tags := tags
    highlights := highlights
    description := description
    faq := faq
    photoShotList := photoShotList
    launchChecklist := launchChecklist }

/-- An input is sanitized when it is the successful result of
`sanitizeListingInput` on some raw input. -/
def Sanitized (input : ListingInput) : Prop :=
  ∃ raw : RawInput, sanitizeListingInput raw = Except.ok input

/-- Sufficient conditions on a tracked pattern `q` and a replacement pair
`(p, r)` under which `replace p r` can create no new occurrence of `q`:
`q` does not occur inside `r`; no nonempty prefix of `q` is a suffix of `r`
(so no occurrence of `q` can start inside an inserted `r`); and every proper
nonempty suffix of `q` is either prefix-incomparable with `r`, or is a
common prefix of `r` and `p` (so an occurrence of `q` running into an
inserted `r` forces an occurrence of `q` in the original text). -/
@[reducible] def replCond (q p r : Str) : Prop :=
  ¬ q <:+: r ∧
    (∀ k ∈ List.range q.length, ¬ (q.take (k + 1)) <:+ r) ∧
    (∀ k ∈ List.range (q.length - 1),
      ¬ r <+: q.drop (k + 1) ∧ (q.drop (k + 1) <+: r → q.drop (k + 1) <+: p))

/-! ## Claim-side definitions (written from the specification wording) -/

/-- §4.2 candidate pool in the order stated by the specification. -/
def specCandidates (input : ListingInput) : List Str :=
  [input.primaryKeyword] ++ input.supportingKeywords ++
    [input.productType ++ str " gift",
     input.targetAudience ++ str " gift",
     input.productType,
     input.targetAudience,
     (if input.personalization then str "personalized gift" else str "ready to ship"),
     str "etsy seller"] ++
    (List.filter (fun w => 3 ≤ w.length) (splitBy (fun c => c == 32) input.primaryKeyword)).flatMap
      (fun w => [w, w ++ str " decor", w ++ str " idea"]) ++
    fallbackTags

/-- One acceptance step of the §4.2 walk as the specification words it:
normalize the candidate and skip it when it normalizes to empty, exceeds 20
characters, duplicates an accepted tag, or arrives after 13 tags. -/
def specAccept (acc : List Str) (candidate : Str) : List Str :=
  let n := normalizeKeyword candidate
  if n = [] ∨ 20 < n.length ∨ n ∈ acc ∨ 13 ≤ acc.length then acc else acc ++ [n]

/-- The tag list described by claim C4: walk the candidate pool in order. -/
def specTags (input : ListingInput) : List Str :=
  List.foldl specAccept [] (specCandidates input)

/-- The score formula of §4.6 as the claim words it, clamped to `[0, 100]`. -/
def claimScore (input : ListingInput) (tagCount : Nat) : Int :=
  let raw : Int := 55 + min 20 (tagCount : Int) + min 8 (input.supportingKeywords.length : Int) +
    (if input.personalization then 7 else 4) +
    (if 3 ≤ input.materials.length then 6 else 2) +
    (if input.processingTimeDays ≤ 3 then 4 else 1)
  if raw < 0 then 0 else if 100 < raw then 100 else raw

/-- What it means for a `ListingInput` to be fully validated, as guaranteed
by a successful `sanitizeListingInput`. -/
def Valid (v : ListingInput) : Prop :=
  v.shopName ≠ [] ∧ v.shopName.length ≤ 80 ∧
    v.productType ≠ [] ∧ v.productType.length ≤ 80 ∧
    v.targetAudience ≠ [] ∧ v.targetAudience.length ≤ 80 ∧
    v.primaryKeyword ≠ [] ∧ v.primaryKeyword.length ≤ 80 ∧
    normalizeKeyword v.primaryKeyword = v.primaryKeyword ∧
    v.supportingKeywords ≠ [] ∧ v.supportingKeywords.length ≤ 16 ∧
    v.materials.length ≤ 12 ∧
    1 ≤ v.processingTimeDays ∧ v.processingTimeDays ≤ 45

/-! ## Concrete inputs used by counterexamples and witnesses -/

/-- A raw input that sanitizes successfully and whose title is packed close
to the 140-character cap with occurrences of `color`. -/
def rawColorful : RawInput :=
  { shopName := JsValue.jstr (str "Shop")
    productType := JsValue.jstr (str "x")
    targetAudience := JsValue.jstr (str "y")
    primaryKeyword := JsValue.jstr
      (str "color color color color color color color color color color color color color")
    supportingKeywords := JsValue.jarr [JsValue.jstr (str "color color color color")]
    materials := JsValue.jarr []
    tone := JsValue.jstr (str "warm")
    priceBand := JsValue.jstr (str "$20-$35")
    processingTimeDays := JsValue.jnum 3
    personalization := JsValue.jbool false
    includeUkSpelling := JsValue.jbool true }

/-- The sanitized form of `rawColorful`. -/
def inColorful : ListingInput :=
  { shopName := str "Shop"
    productType := str "x"
    targetAudience := str "y"
    primaryKeyword :=
      str "color color color color color color color color color color color color color"
    supportingKeywords := [str "color color color color"]
    materials := []
    tone := Tone.warm
    priceBand := str "$20-$35"
    processingTimeDays := 3
    personalization := false
    includeUkSpelling := true }

/-- The raw form of the repository's own test input (`listing.test.ts`). -/
def rawRingDish : RawInput :=
  { shopName := JsValue.jstr (str "Copper Pine Studio")
    productType := JsValue.jstr (str "ring dish")
    targetAudience := JsValue.jstr (str "bridal party")
    primaryKeyword := JsValue.jstr (str "personalized ring dish")
    supportingKeywords := JsValue.jarr
      [JsValue.jstr (str "engagement gift"), JsValue.jstr (str "bridal shower gift"),
       JsValue.jstr (str "ceramic tray")]
    materials := JsValue.jarr
      [JsValue.jstr (str "ceramic"), JsValue.jstr (str "glaze"), JsValue.jstr (str "gold paint")]
    tone := JsValue.jstr (str "warm")
    priceBand := JsValue.jstr (str "$20-$35")
    processingTimeDays := JsValue.jnum 3
    personalization := JsValue.jbool true
    includeUkSpelling := JsValue.jbool false }

/-- The sanitized form of `rawRingDish`. -/
def inRingDish : ListingInput :=
  { shopName := str "Copper Pine Studio"
    productType := str "ring dish"
    targetAudience := str "bridal party"
    primaryKeyword := str "personalized ring dish"
    supportingKeywords := [str "engagement gift", str "bridal shower gift", str "ceramic tray"]
    materials := [str "ceramic", str "glaze", str "gold paint"]
    tone := Tone.warm
    priceBand := str "$20-$35"
    processingTimeDays := 3
    personalization := true
    includeUkSpelling := false }

/-- The test input of `listing.test.ts` with an empty supporting-keyword
list (expected failure `invalid_supportingKeywords`). -/
def rawNoKeywords : RawInput :=
  { shopName := JsValue.jstr (str "Northwind")
    productType := JsValue.jstr (str "print")
    targetAudience := JsValue.jstr (str "pet owners")
    primaryKeyword := JsValue.jstr (str "dog memorial print")
    supportingKeywords := JsValue.jarr []
    materials := JsValue.jarr []
    tone := JsValue.jstr (str "minimal")
    priceBand := JsValue.jstr (str "$10-$20")
    processingTimeDays := JsValue.jnum 4
    personalization := JsValue.jbool false
    includeUkSpelling := JsValue.jbool false }

/-- `rawRingDish` with a number in the `shopName` field. -/
def rawBadShopName : RawInput :=
  { rawRingDish with shopName := JsValue.jnum 3 }

/-- `rawRingDish` with a non-array `supportingKeywords` field. -/
def rawNullKeywords : RawInput :=
  { rawRingDish with supportingKeywords := JsValue.jnull }

/-- `rawRingDish` with a number in the `primaryKeyword` field. -/
def rawBadPrimary : RawInput :=
  { rawRingDish with primaryKeyword := JsValue.jnum 7 }

/-- `rawRingDish` with a boolean in the `priceBand` field. -/
def rawBadPriceBand : RawInput :=
  { rawRingDish with priceBand := JsValue.jbool true }

/-- `rawRingDish` with a non-string entry in the `supportingKeywords`
array, reached well before the 16-keyword cap. -/
def rawBadEntryKeywords : RawInput :=
  { rawRingDish with
    supportingKeywords := JsValue.jarr [JsValue.jstr (str "engagement gift"), JsValue.jnum 5] }

/-- `rawRingDish` with wrong-typed values in both boolean fields. -/
def rawBadBools : RawInput :=
  { rawRingDish with personalization := JsValue.jnum 7, includeUkSpelling := JsValue.jnull }

/-- First-seen-order deduplication as claim C8 words it: walk the already
normalized pieces, keep each nonempty piece the first time it appears
(without re-normalizing), and stop once `maxCount` are kept. -/
def dedupeFirstSeen (maxCount : Nat) : List Str → List Str → List Str
  | [], acc => acc
  | v :: rest, acc =>
    if v = [] ∨ v ∈ acc then dedupeFirstSeen maxCount rest acc
    else if maxCount ≤ (acc ++ [v]).length then acc ++ [v]
    else dedupeFirstSeen maxCount rest (acc ++ [v])

/-! # Theorems

## Generic list lemmas -/

theorem prefTotal {l₁ l₂ l₃ : Str} (h₁ : l₁ <+: l₃) (h₂ : l₂ <+: l₃) :
    l₁ <+: l₂ ∨ l₂ <+: l₁ :=
  List.prefix_or_prefix_of_prefix h₁ h₂

theorem prefAppendCases {t r X : Str} (h : t <+: r ++ X) : t <+: r ∨ r <+: t :=
  prefTotal h (List.prefix_append r X)

theorem prefConsCases {t X : Str} {c : Nat} (h : t <+: c :: X) :
    t = [] ∨ ∃ t', t = c :: t' ∧ t' <+: X := by
  cases t with
  | nil => exact Or.inl rfl
  | cons a t' =>
    obtain ⟨w, hw⟩ := h
    rw [List.cons_append] at hw
    injection hw with h1 h2
    exact Or.inr ⟨t', by rw [h1], ⟨w, h2⟩⟩

theorem infixConsCases {q X : Str} {c : Nat} (h : q <:+: c :: X) :
    q <+: c :: X ∨ q <:+: X := by
  obtain ⟨st, en, hst⟩ := h
  cases st with
  | nil => exact Or.inl ⟨en, by simpa using hst⟩
  | cons s0 st' =>
    rw [List.cons_append] at hst
    injection hst with h1 h2
    exact Or.inr ⟨st', en, h2⟩

theorem infixAppendSplit {q x y : Str} (h : q <:+: x ++ y) :
    q <:+: x ∨ q <:+: y ∨
      ∃ a b, a ++ b = q ∧ a ≠ [] ∧ b ≠ [] ∧ a <:+ x ∧ b <+: y := by
  obtain ⟨st, en, hst⟩ := h
  induction st generalizing x with
  | nil =>
    simp only [List.nil_append] at hst
    have hq : q <+: x ++ y := ⟨en, hst⟩
    rcases prefTotal hq (List.prefix_append x y) with hqx | hxq
    · exact Or.inl hqx.isInfix
    · obtain ⟨b, hb⟩ := hxq
      by_cases hxnil : x = []
      · subst hxnil
        refine Or.inr (Or.inl ?_)
        simp only [List.nil_append] at hst
        exact List.IsPrefix.isInfix ⟨en, hst⟩
      · by_cases hbnil : b = []
        · subst hbnil
          rw [List.append_nil] at hb
          exact Or.inl (hb ▸ List.infix_rfl)
        · refine Or.inr (Or.inr ⟨x, b, hb, hxnil, hbnil, List.suffix_rfl, ?_⟩)
          rw [← hb, List.append_assoc] at hst
          exact ⟨en, List.append_cancel_left hst⟩
  | cons s0 st' ih =>
    cases x with
    | nil =>
      refine Or.inr (Or.inl ⟨s0 :: st', en, ?_⟩)
      simpa using hst
    | cons x0 x' =>
      rw [List.cons_append, List.cons_append] at hst
      injection hst with h1 h2
      rcases ih h2 with hx | hy | ⟨a, b, hab, hane, hbne, hax, hby⟩
      · exact Or.inl (List.infix_cons hx)
      · exact Or.inr (Or.inl hy)
      · exact Or.inr (Or.inr ⟨a, b, hab, hane, hbne, hax.trans (List.suffix_cons x0 x'), hby⟩)

/-! ## Evaluation rules for `replace` and `replaceCI` -/

theorem replAux_skipDrop (tst : Str → Bool) (L : Nat) (r : Str) :
    ∀ (k : Nat) (s : Str), replAux tst L r k s = replAux tst L r 0 (s.drop k) := by
  intro k s
  induction s generalizing k with
  | nil => cases k <;> rfl
  | cons c s' ih =>
    cases k with
    | zero => rfl
    | succ k' => simpa [replAux] using ih k'

theorem replace_nil (p r : Str) : replace p r [] = [] := rfl

theorem replace_cons (p r : Str) (c : Nat) (s : Str) :
    replace p r (c :: s) =
      if p ≠ [] ∧ p <+: c :: s then r ++ replace p r (List.drop (p.length - 1) s)
      else c :: replace p r s := by
  show replAux _ _ r 0 (c :: s) = _
  rw [replAux]
  by_cases h : p ≠ [] ∧ p <+: c :: s
  · have hb : (!p.isEmpty && p.isPrefixOf (c :: s)) = true := by
      simp [List.isEmpty_iff, h.1, List.isPrefixOf_iff_prefix, h.2]
    rw [if_pos hb, if_pos h, replAux_skipDrop]
    rfl
  · have hb : (!p.isEmpty && p.isPrefixOf (c :: s)) = false := by
      rcases not_and_or.mp h with h1 | h2
      · simp [List.isEmpty_iff, not_not.mp h1]
      · have hf : p.isPrefixOf (c :: s) = false := by
          rw [Bool.eq_false_iff]
          simpa [List.isPrefixOf_iff_prefix] using h2
        simp [hf]
    rw [if_neg (by simp [hb]), if_neg h]
    rfl

theorem replaceCI_nil (p r : Str) : replaceCI p r [] = [] := rfl

theorem replaceCI_cons (p r : Str) (c : Nat) (s : Str) :
    replaceCI p r (c :: s) =
      if p ≠ [] ∧ lcs p <+: lcs (c :: s) then r ++ replaceCI p r (List.drop (p.length - 1) s)
      else c :: replaceCI p r s := by
  show replAux _ _ r 0 (c :: s) = _
  rw [replAux]
  by_cases h : p ≠ [] ∧ lcs p <+: lcs (c :: s)
  · have hb : (!p.isEmpty && (lcs p).isPrefixOf (lcs (c :: s))) = true := by
      simp [List.isEmpty_iff, h.1, List.isPrefixOf_iff_prefix, h.2]
    rw [if_pos hb, if_pos h, replAux_skipDrop]
    rfl
  · have hb : (!p.isEmpty && (lcs p).isPrefixOf (lcs (c :: s))) = false := by
      rcases not_and_or.mp h with h1 | h2
      · simp [List.isEmpty_iff, not_not.mp h1]
      · have hf : (lcs p).isPrefixOf (lcs (c :: s)) = false := by
          rw [Bool.eq_false_iff]
          simpa [List.isPrefixOf_iff_prefix] using h2
        simp [hf]
    rw [if_neg (by simp [hb]), if_neg h]
    rfl

/-! ## Occurrence analysis for `replace` -/

theorem replCond_elim_B {q p r : Str} (h : replCond q p r) :
    ∀ a b : Str, a ++ b = q → a ≠ [] → ¬ a <:+ r := by
  intro a b hab hane har
  have hlen : a.length + b.length = q.length := by
    rw [← hab, List.length_append]
  have hpos : 1 ≤ a.length := List.length_pos.mpr hane
  have hk : a.length - 1 ∈ List.range q.length := by
    rw [List.mem_range]; omega
  have htake : q.take (a.length - 1 + 1) = a := by
    have : a.length - 1 + 1 = a.length := by omega
    rw [this, ← hab]
    exact List.take_left a b
  have hend := h.2.1 (a.length - 1) hk
  rw [htake] at hend
  exact hend har

theorem replCond_elim_C {q p r : Str} (h : replCond q p r) :
    ∀ u t : Str, u ++ t = q → u ≠ [] → t ≠ [] →
      ¬ r <+: t ∧ (t <+: r → t <+: p) := by
  intro u t hut hune htne
  have hlen : u.length + t.length = q.length := by
    rw [← hut, List.length_append]
  have hupos : 1 ≤ u.length := List.length_pos.mpr hune
  have htpos : 1 ≤ t.length := List.length_pos.mpr htne
  have hk : u.length - 1 ∈ List.range (q.length - 1) := by
    rw [List.mem_range]; omega
  have hdrop : q.drop (u.length - 1 + 1) = t := by
    have : u.length - 1 + 1 = u.length := by omega
    rw [this, ← hut]
    exact List.drop_left u t
  have := h.2.2 (u.length - 1) hk
  rw [hdrop] at this
  exact this

/-- If a nonempty `t` completes some occurrence of the tracked pattern `q`
(there is a nonempty `u` with `u ++ t = q`) and `t` is a prefix of the
output of `replace p r`, then `t` is already a prefix of the subject. -/
theorem replaceKeep (q p r : Str) (hC : replCond q p r) :
    ∀ s t u : Str, u ++ t = q → u ≠ [] → t ≠ [] → t <+: replace p r s → t <+: s := by
  suffices H : ∀ n : Nat, ∀ s : Str, s.length ≤ n → ∀ t u : Str,
      u ++ t = q → u ≠ [] → t ≠ [] → t <+: replace p r s → t <+: s by
    intro s; exact H s.length s le_rfl
  intro n
  induction n with
  | zero =>
    intro s hs t u hut hune htne hpre
    have : s = [] := List.length_eq_zero.mp (Nat.le_zero.mp hs)
    subst this
    rw [replace_nil] at hpre
    exact absurd (List.prefix_nil.mp hpre) htne
  | succ n ih =>
    intro s hs t u hut hune htne hpre
    cases s with
    | nil =>
      rw [replace_nil] at hpre
      exact absurd (List.prefix_nil.mp hpre) htne
    | cons c s' =>
      rw [replace_cons] at hpre
      by_cases hc : p ≠ [] ∧ p <+: c :: s'
      · rw [if_pos hc] at hpre
        rcases prefAppendCases hpre with h1 | h2
        · exact ((replCond_elim_C hC u t hut hune htne).2 h1).trans hc.2
        · exact absurd h2 (replCond_elim_C hC u t hut hune htne).1
      · rw [if_neg hc] at hpre
        rcases prefConsCases hpre with h0 | ⟨t', rfl, ht'⟩
        · exact absurd h0 htne
        · cases t' with
          | nil => exact ⟨s', rfl⟩
          | cons d t'' =>
            have hlen : s'.length ≤ n := by
              simpa [Nat.succ_le_succ_iff] using hs
            have hut' : (u ++ [c]) ++ (d :: t'') = q := by
              rw [List.append_assoc]; simpa using hut
            have := ih s' hlen (d :: t'') (u ++ [c]) hut'
              (by simp) (by simp) ht'
            obtain ⟨w, hw⟩ := this
            exact ⟨w, by rw [List.cons_append, hw]⟩

/-- After `replace p r`, the pattern `p` itself no longer occurs
(conditions as in `replCond p p r`). -/
theorem replaceKill (p r : Str) (hp : p ≠ []) (hC : replCond p p r) :
    ∀ s : Str, ¬ p <:+: replace p r s := by
  suffices H : ∀ n : Nat, ∀ s : Str, s.length ≤ n → ¬ p <:+: replace p r s by
    intro s; exact H s.length s le_rfl
  intro n
  induction n with
  | zero =>
    intro s hs hocc
    have : s = [] := List.length_eq_zero.mp (Nat.le_zero.mp hs)
    subst this
    rw [replace_nil] at hocc
    exact hp (List.infix_nil.mp hocc)
  | succ n ih =>
    intro s hs hocc
    cases s with
    | nil =>
      rw [replace_nil] at hocc
      exact hp (List.infix_nil.mp hocc)
    | cons c s' =>
      rw [replace_cons] at hocc
      by_cases hc : p ≠ [] ∧ p <+: c :: s'
      · rw [if_pos hc] at hocc
        rcases infixAppendSplit hocc with h1 | h2 | ⟨a, b, hab, hane, hbne, har, hbX⟩
        · exact hC.1 h1
        · have hlen : (List.drop (p.length - 1) s').length ≤ n := by
            have := List.length_drop (p.length - 1) s'
            have hs' : s'.length ≤ n := by simpa [Nat.succ_le_succ_iff] using hs
            omega
          exact ih _ hlen h2
        · exact replCond_elim_B hC a b hab hane har
      · rw [if_neg hc] at hocc
        rcases infixConsCases hocc with h1 | h2
        · rcases prefConsCases h1 with h0 | ⟨t, hpt, ht⟩
          · exact hp h0
          · cases t with
            | nil => exact hc ⟨hp, ⟨s', by rw [hpt]; rfl⟩⟩
            | cons d t' =>
              have hut : [c] ++ (d :: t') = p := by rw [hpt]; rfl
              have := replaceKeep p p r hC s' (d :: t') [c] hut (by simp) (by simp) ht
              obtain ⟨w, hw⟩ := this
              exact hc ⟨hp, ⟨w, by rw [hpt, List.cons_append, hw]⟩⟩
        · have hlen : s'.length ≤ n := by simpa [Nat.succ_le_succ_iff] using hs
          exact ih s' hlen h2

/-- `replace p r` creates no new occurrence of a distinct tracked pattern
`q` satisfying `replCond q p r`. -/
theorem replacePres (q p r : Str) (hq : q ≠ []) (hC : replCond q p r) :
    ∀ s : Str, ¬ q <:+: s → ¬ q <:+: replace p r s := by
  suffices H : ∀ n : Nat, ∀ s : Str, s.length ≤ n → ¬ q <:+: s → ¬ q <:+: replace p r s by
    intro s; exact H s.length s le_rfl
  intro n
  induction n with
  | zero =>
    intro s hs hno hocc
    have : s = [] := List.length_eq_zero.mp (Nat.le_zero.mp hs)
    subst this
    rw [replace_nil] at hocc
    exact hq (List.infix_nil.mp hocc)
  | succ n ih =>
    intro s hs hno hocc
    cases s with
    | nil =>
      rw [replace_nil] at hocc
      exact hq (List.infix_nil.mp hocc)
    | cons c s' =>
      rw [replace_cons] at hocc
      by_cases hc : p ≠ [] ∧ p <+: c :: s'
      · rw [if_pos hc] at hocc
        rcases infixAppendSplit hocc with h1 | h2 | ⟨a, b, hab, hane, hbne, har, hbX⟩
        · exact hC.1 h1
        · have hlen : (List.drop (p.length - 1) s').length ≤ n := by
            have := List.length_drop (p.length - 1) s'
            have hs' : s'.length ≤ n := by simpa [Nat.succ_le_succ_iff] using hs
            omega
          have hno' : ¬ q <:+: List.drop (p.length - 1) s' := fun hin =>
            hno (hin.trans ((List.drop_suffix _ s').isInfix.trans
              (List.suffix_cons c s').isInfix))
          exact ih _ hlen hno' h2
        · exact replCond_elim_B hC a b hab hane har
      · rw [if_neg hc] at hocc
        rcases infixConsCases hocc with h1 | h2
        · rcases prefConsCases h1 with h0 | ⟨t, hqt, ht⟩
          · exact hq h0
          · cases t with
            | nil => exact hno (List.IsPrefix.isInfix ⟨s', by rw [hqt]; rfl⟩)
            | cons d t' =>
              have hut : [c] ++ (d :: t') = q := by rw [hqt]; rfl
              have := replaceKeep q p r hC s' (d :: t') [c] hut (by simp) (by simp) ht
              obtain ⟨w, hw⟩ := this
              exact hno (List.IsPrefix.isInfix ⟨w, by rw [hqt, List.cons_append, hw]⟩)
        · have hlen : s'.length ≤ n := by simpa [Nat.succ_le_succ_iff] using hs
          have hno' : ¬ q <:+: s' := fun hin => hno (hin.trans (List.suffix_cons c s').isInfix)
          exact ih s' hlen hno' h2

/-! ## Lowering `replaceCI` to `replace` -/

theorem lcs_replaceCI (p r : Str) :
    ∀ s : Str, lcs (replaceCI p r s) = replace (lcs p) (lcs r) (lcs s) := by
  suffices H : ∀ n : Nat, ∀ s : Str, s.length ≤ n →
      lcs (replaceCI p r s) = replace (lcs p) (lcs r) (lcs s) by
    intro s; exact H s.length s le_rfl
  intro n
  induction n with
  | zero =>
    intro s hs
    have : s = [] := List.length_eq_zero.mp (Nat.le_zero.mp hs)
    subst this
    rfl
  | succ n ih =>
    intro s hs
    cases s with
    | nil => rfl
    | cons c s' =>
      rw [replaceCI_cons]
      have hmapcons : lcs (c :: s') = lc c :: lcs s' := rfl
      by_cases h : p ≠ [] ∧ lcs p <+: lcs (c :: s')
      · rw [if_pos h]
        have hcond : lcs p ≠ [] ∧ lcs p <+: lc c :: lcs s' := by
          refine ⟨?_, hmapcons ▸ h.2⟩
          simpa [lcs] using h.1
        rw [hmapcons, replace_cons, if_pos hcond]
        have hlen : (List.drop (p.length - 1) s').length ≤ n := by
          have := List.length_drop (p.length - 1) s'
          have hs' : s'.length ≤ n := by simpa [Nat.succ_le_succ_iff] using hs
          omega
        have hdrop : lcs (List.drop (p.length - 1) s') = List.drop ((lcs p).length - 1) (lcs s') := by
          simp [lcs]
        calc lcs (r ++ replaceCI p r (List.drop (p.length - 1) s'))
            = lcs r ++ lcs (replaceCI p r (List.drop (p.length - 1) s')) := by simp [lcs]
          _ = lcs r ++ replace (lcs p) (lcs r) (lcs (List.drop (p.length - 1) s')) := by
              rw [ih _ hlen]
          _ = lcs r ++ replace (lcs p) (lcs r) (List.drop ((lcs p).length - 1) (lcs s')) := by
              rw [hdrop]
      · rw [if_neg h]
        have hcond : ¬ (lcs p ≠ [] ∧ lcs p <+: lc c :: lcs s') := by
          intro hcon
          exact h ⟨by simpa [lcs] using hcon.1, hmapcons ▸ hcon.2⟩
        rw [hmapcons, replace_cons, if_neg hcond]
        have hs' : s'.length ≤ n := by simpa [Nat.succ_le_succ_iff] using hs
        show lc c :: lcs (replaceCI p r s') = lc c :: replace (lcs p) (lcs r) (lcs s')
        rw [ih s' hs']

/-- If the lowercased pattern does not occur in the lowercased string, the
case-insensitive replacement is the identity. -/
theorem replaceCI_of_no_occurrence (p r : Str) :
    ∀ s : Str, ¬ lcs p <:+: lcs s → replaceCI p r s = s := by
  intro s
  induction s with
  | nil => intro _; rfl
  | cons c s' ih =>
    intro hno
    rw [replaceCI_cons]
    have hcond : ¬ (p ≠ [] ∧ lcs p <+: lcs (c :: s')) := by
      intro hcon
      exact hno hcon.2.isInfix
    rw [if_neg hcond]
    have hno' : ¬ lcs p <:+: lcs s' := by
      intro hin
      exact hno (hin.trans (List.suffix_cons (lc c) (lcs s')).isInfix)
    rw [ih hno']

/-! ## No pattern of the UK-spelling pass survives or reappears -/

/-- The composite lowercase rewriting chain of the UK-spelling pass. -/
def ukChain (u : Str) : Str :=
  replace (str "organize") (str "organise")
    (replace (str "personalization") (str "personalisation")
      (replace (str "customization") (str "customisation")
        (replace (str "favorite") (str "favourite")
          (replace (str "color") (str "colour") u))))

theorem ukChain_no_color (u : Str) : ¬ str "color" <:+: ukChain u := by
  have h1 : ¬ str "color" <:+: replace (str "color") (str "colour") u :=
    replaceKill (str "color") (str "colour") (by decide) (by decide) u
  have h2 := replacePres (str "color") (str "favorite") (str "favourite")
    (by decide) (by decide) _ h1
  have h3 := replacePres (str "color") (str "customization") (str "customisation")
    (by decide) (by decide) _ h2
  have h4 := replacePres (str "color") (str "personalization") (str "personalisation")
    (by decide) (by decide) _ h3
  exact replacePres (str "color") (str "organize") (str "organise")
    (by decide) (by decide) _ h4

theorem ukChain_no_favorite (u : Str) : ¬ str "favorite" <:+: ukChain u := by
  have h2 : ¬ str "favorite" <:+:
      replace (str "favorite") (str "favourite") (replace (str "color") (str "colour") u) :=
    replaceKill (str "favorite") (str "favourite") (by decide) (by decide) _
  have h3 := replacePres (str "favorite") (str "customization") (str "customisation")
    (by decide) (by decide) _ h2
  have h4 := replacePres (str "favorite") (str "personalization") (str "personalisation")
    (by decide) (by decide) _ h3
  exact replacePres (str "favorite") (str "organize") (str "organise")
    (by decide) (by decide) _ h4

theorem ukChain_no_customization (u : Str) : ¬ str "customization" <:+: ukChain u := by
  have h3 : ¬ str "customization" <:+:
      replace (str "customization") (str "customisation")
        (replace (str "favorite") (str "favourite")
          (replace (str "color") (str "colour") u)) :=
    replaceKill (str "customization") (str "customisation") (by decide) (by decide) _
  have h4 := replacePres (str "customization") (str "personalization") (str "personalisation")
    (by decide) (by decide) _ h3
  exact replacePres (str "customization") (str "organize") (str "organise")
    (by decide) (by decide) _ h4

theorem ukChain_no_personalization (u : Str) :
    ¬ str "personalization" <:+: ukChain u := by
  have h4 : ¬ str "personalization" <:+:
      replace (str "personalization") (str "personalisation")
        (replace (str "customization") (str "customisation")
          (replace (str "favorite") (str "favourite")
            (replace (str "color") (str "colour") u))) :=
    replaceKill (str "personalization") (str "personalisation") (by decide) (by decide) _
  exact replacePres (str "personalization") (str "organize") (str "organise")
    (by decide) (by decide) _ h4

theorem ukChain_no_organize (u : Str) : ¬ str "organize" <:+: ukChain u := by
  exact replaceKill (str "organize") (str "organise") (by decide) (by decide) _

/-- Lowercasing the UK-spelling pass gives the lowercase chain. -/
theorem lcs_britishSpelling (s : Str) : lcs (britishSpelling s true) = ukChain (lcs s) := by
  show lcs (replaceCI (str "organize") (str "organise") _) = _
  rw [lcs_replaceCI, lcs_replaceCI, lcs_replaceCI, lcs_replaceCI, lcs_replaceCI]
  have e1 : lcs (str "organize") = str "organize" := by decide
  have e2 : lcs (str "organise") = str "organise" := by decide
  have e3 : lcs (str "personalization") = str "personalization" := by decide
  have e4 : lcs (str "personalisation") = str "personalisation" := by decide
  have e5 : lcs (str "customization") = str "customization" := by decide
  have e6 : lcs (str "customisation") = str "customisation" := by decide
  have e7 : lcs (str "favorite") = str "favorite" := by decide
  have e8 : lcs (str "favourite") = str "favourite" := by decide
  have e9 : lcs (str "color") = str "color" := by decide
  have e10 : lcs (str "colour") = str "colour" := by decide
  rw [e1, e2, e3, e4, e5, e6, e7, e8, e9, e10]
  rfl

/-- C5: the UK-spelling transform is idempotent. -/
theorem c5_uk_spelling_idempotent (s : Str) :
    britishSpelling (britishSpelling s true) true = britishSpelling s true := by
  have hl : lcs (britishSpelling s true) = ukChain (lcs s) := lcs_britishSpelling s
  have s1 : replaceCI (str "color") (str "colour") (britishSpelling s true) =
      britishSpelling s true := by
    apply replaceCI_of_no_occurrence
    rw [show lcs (str "color") = str "color" from by decide, hl]
    exact ukChain_no_color (lcs s)
  have s2 : replaceCI (str "favorite") (str "favourite") (britishSpelling s true) =
      britishSpelling s true := by
    apply replaceCI_of_no_occurrence
    rw [show lcs (str "favorite") = str "favorite" from by decide, hl]
    exact ukChain_no_favorite (lcs s)
  have s3 : replaceCI (str "customization") (str "customisation") (britishSpelling s true) =
      britishSpelling s true := by
    apply replaceCI_of_no_occurrence
    rw [show lcs (str "customization") = str "customization" from by decide, hl]
    exact ukChain_no_customization (lcs s)
  have s4 : replaceCI (str "personalization") (str "personalisation") (britishSpelling s true) =
      britishSpelling s true := by
    apply replaceCI_of_no_occurrence
    rw [show lcs (str "personalization") = str "personalization" from by decide, hl]
    exact ukChain_no_personalization (lcs s)
  have s5 : replaceCI (str "organize") (str "organise") (britishSpelling s true) =
      britishSpelling s true := by
    apply replaceCI_of_no_occurrence
    rw [show lcs (str "organize") = str "organize" from by decide, hl]
    exact ukChain_no_organize (lcs s)
  calc britishSpelling (britishSpelling s true) true
      = replaceCI (str "organize") (str "organise")
          (replaceCI (str "personalization") (str "personalisation")
            (replaceCI (str "customization") (str "customisation")
              (replaceCI (str "favorite") (str "favourite")
                (replaceCI (str "color") (str "colour") (britishSpelling s true))))) := rfl
    _ = britishSpelling s true := by rw [s1, s2, s3, s4, s5]

/-! ## Tag-list invariants -/

/-- Full case analysis of one `pushTag` step. -/
theorem pushTag_spec (t : List Str) (c : Str) :
    ((normalizeKeyword c).isEmpty = true ∧ pushTag t c = t) ∨
      (20 < (normalizeKeyword c).length ∧ pushTag t c = t) ∨
      (normalizeKeyword c ∈ t ∧ pushTag t c = t) ∨
      (13 ≤ t.length ∧ pushTag t c = t) ∨
      (pushTag t c = t ++ [normalizeKeyword c] ∧ (normalizeKeyword c).isEmpty = false ∧
        (normalizeKeyword c).length ≤ 20 ∧ normalizeKeyword c ∉ t ∧ t.length < 13) := by
  simp only [pushTag]
  split_ifs with h1 h2 h3 h4
  · exact Or.inl ⟨h1, rfl⟩
  · exact Or.inr (Or.inl ⟨h2, rfl⟩)
  · exact Or.inr (Or.inr (Or.inl ⟨h3, rfl⟩))
  · exact Or.inr (Or.inr (Or.inr (Or.inl ⟨h4, rfl⟩)))
  · exact Or.inr (Or.inr (Or.inr (Or.inr
      ⟨rfl, by simpa using h1, by omega, h3, by omega⟩)))

/-- Either `pushTag` leaves the list unchanged or it appends the
normalized candidate. -/
theorem pushTag_eq_or_append (t : List Str) (c : Str) :
    pushTag t c = t ∨
      (pushTag t c = t ++ [normalizeKeyword c] ∧ (normalizeKeyword c).length ≤ 20 ∧
        normalizeKeyword c ∉ t ∧ t.length < 13) := by
  rcases pushTag_spec t c with ⟨_, h⟩ | ⟨_, h⟩ | ⟨_, h⟩ | ⟨_, h⟩ | ⟨h, _, h2, h3, h4⟩
  · exact Or.inl h
  · exact Or.inl h
  · exact Or.inl h
  · exact Or.inl h
  · exact Or.inr ⟨h, h2, h3, h4⟩

/-- The invariant maintained by `pushTag`: at most 13 tags, pairwise
distinct, each at most 20 characters. -/
def TagsOK (t : List Str) : Prop :=
  t.length ≤ 13 ∧ t.Nodup ∧ ∀ x ∈ t, x.length ≤ 20

theorem pushTag_ok {t : List Str} (h : TagsOK t) (c : Str) : TagsOK (pushTag t c) := by
  obtain ⟨hlen, hnd, hbound⟩ := h
  rcases pushTag_eq_or_append t c with heq | ⟨heq, h20, hnotmem, hlt⟩
  · rw [heq]; exact ⟨hlen, hnd, hbound⟩
  · rw [heq]
    refine ⟨?_, ?_, ?_⟩
    · simp only [List.length_append, List.length_singleton]
      omega
    · rw [List.nodup_append]
      exact ⟨hnd, List.nodup_singleton _, by
        intro x hx hy
        simp only [List.mem_singleton] at hy
        exact hnotmem (hy ▸ hx)⟩
    · intro x hx
      rcases List.mem_append.mp hx with hx | hx
      · exact hbound x hx
      · simp only [List.mem_singleton] at hx
        subst hx
        exact h20

theorem foldl_pushTag_ok {t : List Str} (h : TagsOK t) (l : List Str) :
    TagsOK (List.foldl pushTag t l) := by
  induction l generalizing t with
  | nil => exact h
  | cons c l ih => exact ih (pushTag_ok h c)

theorem mem_pushTag {t : List Str} {x : Str} (h : x ∈ t) (c : Str) : x ∈ pushTag t c := by
  rcases pushTag_eq_or_append t c with heq | ⟨heq, _, _, _⟩
  · rw [heq]; exact h
  · rw [heq]; exact List.mem_append.mpr (Or.inl h)

theorem length_le_pushTag (t : List Str) (c : Str) : t.length ≤ (pushTag t c).length := by
  rcases pushTag_eq_or_append t c with heq | ⟨heq, _, _, _⟩
  · rw [heq]
  · rw [heq]; simp

theorem mem_foldl_pushTag {t : List Str} {x : Str} (h : x ∈ t) (l : List Str) :
    x ∈ List.foldl pushTag t l := by
  induction l generalizing t with
  | nil => exact h
  | cons c l ih => exact ih (mem_pushTag h c)

theorem length_le_foldl_pushTag (t : List Str) (l : List Str) :
    t.length ≤ (List.foldl pushTag t l).length := by
  induction l generalizing t with
  | nil => exact le_rfl
  | cons c l ih => exact (length_le_pushTag t c).trans (ih (pushTag t c))

theorem pushTag_mem_or_full (t : List Str) (c : Str)
    (h1 : (normalizeKeyword c).isEmpty = false) (h2 : (normalizeKeyword c).length ≤ 20) :
    normalizeKeyword c ∈ pushTag t c ∨ 13 ≤ t.length := by
  rcases pushTag_spec t c with ⟨ha, _⟩ | ⟨ha, _⟩ | ⟨ha, hb⟩ | ⟨ha, _⟩ | ⟨hb, _, _, _, _⟩
  · rw [h1] at ha; exact absurd ha (by simp)
  · omega
  · rw [hb]; exact Or.inl ha
  · exact Or.inr ha
  · rw [hb]
    exact Or.inl (List.mem_append.mpr (Or.inr (List.mem_singleton.mpr rfl)))

theorem foldl_pushTag_mem_or_full {c : Str} {l : List Str} (hc : c ∈ l) (t : List Str)
    (h1 : (normalizeKeyword c).isEmpty = false) (h2 : (normalizeKeyword c).length ≤ 20) :
    normalizeKeyword c ∈ List.foldl pushTag t l ∨ 13 ≤ (List.foldl pushTag t l).length := by
  induction l generalizing t with
  | nil => exact absurd hc (List.not_mem_nil c)
  | cons d l ih =>
    rcases List.mem_cons.mp hc with rfl | hc'
    · rcases pushTag_mem_or_full t c h1 h2 with hmem | hfull
      · exact Or.inl (mem_foldl_pushTag hmem l)
      · refine Or.inr ?_
        calc (13 : Nat) ≤ t.length := hfull
          _ ≤ (pushTag t c).length := length_le_pushTag t c
          _ ≤ _ := length_le_foldl_pushTag _ l
    · exact ih hc' (pushTag t d)

theorem nil_tagsOK : TagsOK [] := ⟨by simp, List.nodup_nil, by simp⟩

theorem take13_ok {t : List Str} (h : TagsOK t) : TagsOK (t.take 13) := by
  obtain ⟨hlen, hnd, hbound⟩ := h
  refine ⟨?_, ?_, ?_⟩
  · rw [List.length_take]; omega
  · exact List.Nodup.sublist (List.take_sublist _ _) hnd
  · intro x hx
    exact hbound x ((List.take_sublist _ _).subset hx)

theorem foldl_word_ok {t : List Str} (h : TagsOK t) (l : List Str) :
    TagsOK (List.foldl
      (fun ts w => pushTag (pushTag (pushTag ts w) (w ++ str " decor")) (w ++ str " idea"))
      t l) := by
  induction l generalizing t with
  | nil => exact h
  | cons w l ih => exact ih (pushTag_ok (pushTag_ok (pushTag_ok h w) _) _)

theorem buildTags_ok (input : ListingInput) : TagsOK (buildTags input) := by
  simp only [buildTags]
  exact take13_ok (foldl_pushTag_ok (foldl_word_ok (foldl_pushTag_ok nil_tagsOK _) _) _)

theorem buildTags_ge6 (input : ListingInput) : 6 ≤ (buildTags input).length := by
  simp only [buildTags]
  set t2 := List.foldl
    (fun ts w => pushTag (pushTag (pushTag ts w) (w ++ str " decor")) (w ++ str " idea"))
    (List.foldl pushTag []
      ([input.primaryKeyword] ++ input.supportingKeywords ++
        [input.productType ++ str " gift", input.targetAudience ++ str " gift",
         input.productType, input.targetAudience,
         (if input.personalization then str "personalized gift" else str "ready to ship"),
         str "etsy seller"]))
    (List.filter (fun w => 3 ≤ w.length) (splitBy (fun c => c == 32) input.primaryKeyword))
    with ht2
  have hge : 6 ≤ (List.foldl pushTag t2 fallbackTags).length := by
    by_cases hcap : 13 ≤ (List.foldl pushTag t2 fallbackTags).length
    · omega
    · have hm : ∀ f ∈ fallbackTags, f ∈ List.foldl pushTag t2 fallbackTags := by
        intro f hf
        have hnorm : normalizeKeyword f = f ∧ (normalizeKeyword f).isEmpty = false ∧
            (normalizeKeyword f).length ≤ 20 := by
          have hf' : f ∈ fallbackTags := hf
          simp only [fallbackTags, List.mem_cons, List.not_mem_nil, or_false] at hf'
          rcases hf' with rfl | rfl | rfl | rfl | rfl | rfl <;>
            exact ⟨by decide, by decide, by decide⟩
        rcases foldl_pushTag_mem_or_full hf t2 hnorm.2.1 hnorm.2.2 with h | h
        · rw [← hnorm.1]; exact h
        · exact absurd h hcap
      have hfin : fallbackTags.toFinset ⊆ (List.foldl pushTag t2 fallbackTags).toFinset := by
        intro x hx
        rw [List.mem_toFinset] at hx ⊢
        exact hm x hx
      have hcard := Finset.card_le_card hfin
      have h6 : fallbackTags.toFinset.card = 6 := by decide
      have hlen := List.toFinset_card_le (l := List.foldl pushTag t2 fallbackTags)
      omega
  rw [List.length_take]
  omega

/-- `pushTag` performs exactly the acceptance step described in §4.2. -/
theorem pushTag_eq_specAccept (t : List Str) (c : Str) : pushTag t c = specAccept t c := by
  simp only [pushTag, specAccept]
  split_ifs <;> simp_all [List.isEmpty_iff]
  omega

theorem buildTags_eq_specTags (input : ListingInput) : buildTags input = specTags input := by
  have hfun : pushTag = specAccept := funext fun t => funext fun c => pushTag_eq_specAccept t c
  have hword : ∀ (ws : List Str) (t : List Str),
      List.foldl
        (fun ts w => pushTag (pushTag (pushTag ts w) (w ++ str " decor")) (w ++ str " idea"))
        t ws =
        List.foldl pushTag t (ws.flatMap fun w => [w, w ++ str " decor", w ++ str " idea"]) := by
    intro ws
    induction ws with
    | nil => intro t; rfl
    | cons w ws ih =>
      intro t
      rw [List.flatMap_cons, List.foldl_append]
      simp only [List.foldl_cons, List.foldl_nil]
      exact ih _
  simp only [buildTags, specTags, specCandidates]
  rw [hword]
  rw [List.take_of_length_le
    (foldl_pushTag_ok (foldl_pushTag_ok (foldl_pushTag_ok nil_tagsOK _) _) _).1]
  simp only [List.foldl_append]
  rw [hfun]

/-! ## Claim theorems C2, C3, C4, C6 -/

/-- C2: for every input, the pack built by `buildListingPack` has at most 13
tags, every tag has length at most 20 characters, and the tags are pairwise
distinct (this holds for all inputs, in particular all sanitized ones). -/
theorem c2_tags_bounds (input : ListingInput) (now : Str) :
    (buildListingPack input now).tags.length ≤ 13 ∧
      (buildListingPack input now).tags.Nodup ∧
      ((buildListingPack input now).tags.all fun x => decide (x.length ≤ 20)) = true := by
  have h : (buildListingPack input now).tags = buildTags input := rfl
  rw [h]
  obtain ⟨h1, h2, h3⟩ := buildTags_ok input
  refine ⟨h1, h2, ?_⟩
  rw [List.all_eq_true]
  intro x hx
  simpa using h3 x hx

/-- C4: the tags of the built pack are exactly those produced by walking
the §4.2 candidate pool in the stated fixed order with the stated skip
rules (`specTags` is written from the specification wording). -/
theorem c4_tags_pool_walk (input : ListingInput) (now : Str) :
    (buildListingPack input now).tags = specTags input := by
  have h : (buildListingPack input now).tags = buildTags input := rfl
  rw [h]
  exact buildTags_eq_specTags input

/-- C3: the score of the built pack equals the §4.6 formula (with the
pack's own tag count) clamped to `[0, 100]`, and in particular is always
within `[0, 100]`. -/
theorem c3_score_formula (input : ListingInput) (now : Str) :
    (buildListingPack input now).score =
      claimScore input (buildListingPack input now).tags.length ∧
      0 ≤ (buildListingPack input now).score ∧ (buildListingPack input now).score ≤ 100 := by
  have htags : (buildListingPack input now).tags = buildTags input := rfl
  have hscore : (buildListingPack input now).score = roundScore (rawScore input) := rfl
  rw [hscore, htags]
  refine ⟨?_, ?_, ?_⟩
  · unfold claimScore rawScore roundScore
    simp only [max_def, min_def]
    split_ifs <;> omega
  · exact le_max_left 0 _
  · exact max_le (by omega) (min_le_left 100 _)

/-- C6: `buildListingPack` is deterministic apart from the timestamp: on
equal inputs, every field except `generatedAt` coincides across two calls,
and `generatedAt` is exactly the wall-clock argument. -/
theorem c6_deterministic_except_timestamp (input : ListingInput) (t1 t2 : Str) :
    (buildListingPack input t1).tags = (buildListingPack input t2).tags ∧
      (buildListingPack input t1).title = (buildListingPack input t2).title ∧
      (buildListingPack input t1).description = (buildListingPack input t2).description ∧
      (buildListingPack input t1).highlights = (buildListingPack input t2).highlights ∧
      (buildListingPack input t1).faq = (buildListingPack input t2).faq ∧
      (buildListingPack input t1).photoShotList = (buildListingPack input t2).photoShotList ∧
      (buildListingPack input t1).launchChecklist = (buildListingPack input t2).launchChecklist ∧
      (buildListingPack input t1).score = (buildListingPack input t2).score ∧
      (buildListingPack input t1).generatedAt = t1 ∧
      (buildListingPack input t2).generatedAt = t2 :=
  ⟨rfl, rfl, rfl, rfl, rfl, rfl, rfl, rfl, rfl, rfl⟩

/-! ## Normal forms of `normalizeKeyword` -/

theorem lc_no_upper (c : Nat) : ¬ (65 ≤ lc c ∧ lc c ≤ 90) := by
  unfold lc
  split <;> omega

theorem lc_fix {c : Nat} (h : ¬ (65 ≤ c ∧ c ≤ 90)) : lc c = c := by
  unfold lc
  exact if_neg h

/-- Every whitespace character of the string is the plain space 32. -/
def wsOnly32 (t : Str) : Prop := ∀ c ∈ t, isWs c = true → c = 32

/-- No two adjacent whitespace characters. -/
def noWsRun (t : Str) : Prop :=
  List.Chain' (fun a b => ¬ (isWs a = true ∧ isWs b = true)) t

/-- No whitespace at either end. -/
def trimmedStr (t : Str) : Prop :=
  (∀ c ∈ t.head?, isWs c = false) ∧ ∀ c ∈ t.getLast?, isWs c = false

theorem collapseGo_mem {t : Str} {b : Bool} {c : Nat} (h : c ∈ collapseGo b t) :
    c = 32 ∨ c ∈ t := by
  induction t generalizing b with
  | nil => simp [collapseGo] at h
  | cons d s ih =>
    unfold collapseGo at h
    by_cases hws : isWs d
    · rw [if_pos hws] at h
      by_cases hb : b
      · subst hb
        rw [if_pos rfl] at h
        rcases ih h with h32 | hmem
        · exact Or.inl h32
        · exact Or.inr (List.mem_cons_of_mem d hmem)
      · rw [Bool.not_eq_true] at hb
        subst hb
        rw [if_neg (by simp)] at h
        rcases List.mem_cons.mp h with rfl | h'
        · exact Or.inl rfl
        · rcases ih h' with h32 | hmem
          · exact Or.inl h32
          · exact Or.inr (List.mem_cons_of_mem d hmem)
    · rw [if_neg hws] at h
      rcases List.mem_cons.mp h with rfl | h'
      · exact Or.inr (List.mem_cons_self c s)
      · rcases ih h' with h32 | hmem
        · exact Or.inl h32
        · exact Or.inr (List.mem_cons_of_mem d hmem)

theorem collapseGo_ws32 (t : Str) (b : Bool) : wsOnly32 (collapseGo b t) := by
  induction t generalizing b with
  | nil => intro c hc; simp [collapseGo] at hc
  | cons d s ih =>
    intro c hc hws
    unfold collapseGo at hc
    by_cases hd : isWs d
    · rw [if_pos hd] at hc
      by_cases hb : b
      · subst hb
        rw [if_pos rfl] at hc
        exact ih true c hc hws
      · rw [Bool.not_eq_true] at hb
        subst hb
        rw [if_neg (by simp)] at hc
        rcases List.mem_cons.mp hc with rfl | h'
        · rfl
        · exact ih true c h' hws
    · rw [if_neg hd] at hc
      rcases List.mem_cons.mp hc with rfl | h'
      · exact absurd hws (by simp [hd])
      · exact ih false c h' hws

theorem collapseGo_true_head (t : Str) :
    ∀ c ∈ (collapseGo true t).head?, isWs c = false := by
  induction t with
  | nil => intro c hc; simp [collapseGo] at hc
  | cons d s ih =>
    intro c hc
    unfold collapseGo at hc
    by_cases hd : isWs d
    · rw [if_pos hd, if_pos rfl] at hc
      exact ih c hc
    · rw [if_neg hd] at hc
      simp only [List.head?_cons, Option.mem_def, Option.some.injEq] at hc
      subst hc
      simpa using hd

theorem collapseGo_noRun (t : Str) (b : Bool) : noWsRun (collapseGo b t) := by
  induction t generalizing b with
  | nil => exact List.chain'_nil
  | cons d s ih =>
    unfold collapseGo
    by_cases hd : isWs d
    · rw [if_pos hd]
      by_cases hb : b
      · subst hb
        rw [if_pos rfl]
        exact ih true
      · rw [Bool.not_eq_true] at hb
        subst hb
        rw [if_neg (by simp)]
        unfold noWsRun
        rw [List.chain'_cons']
        refine ⟨?_, ih true⟩
        intro y hy
        have := collapseGo_true_head s y hy
        simp [this]
    · rw [if_neg hd]
      unfold noWsRun
      rw [List.chain'_cons']
      refine ⟨?_, ih false⟩
      intro y _
      simp [hd]

theorem collapseGo_true_eq_false {t : Str} (h : ∀ c ∈ t.head?, isWs c = false) :
    collapseGo true t = collapseGo false t := by
  cases t with
  | nil => rfl
  | cons d s =>
    have hd : isWs d = false := h d rfl
    unfold collapseGo
    rw [if_neg (by simp [hd]), if_neg (by simp [hd])]

theorem collapseGo_eq_self {t : Str} (h32 : wsOnly32 t) (hrun : noWsRun t) :
    collapseGo false t = t := by
  induction t with
  | nil => rfl
  | cons d s ih =>
    unfold collapseGo
    by_cases hd : isWs d
    · rw [if_pos hd, if_neg (by simp)]
      have hd32 : d = 32 := h32 d (List.mem_cons_self d s) hd
      have hhead : ∀ c ∈ s.head?, isWs c = false := by
        intro c hc
        cases s with
        | nil => simp at hc
        | cons e s' =>
          simp only [List.head?_cons, Option.mem_def, Option.some.injEq] at hc
          subst hc
          have := List.chain'_cons.mp hrun
          by_contra hcon
          rw [Bool.not_eq_false] at hcon
          exact this.1 ⟨hd, hcon⟩
      have hs : collapseGo true s = s := by
        rw [collapseGo_true_eq_false hhead]
        exact ih (fun c hc hw => h32 c (List.mem_cons_of_mem d hc) hw)
          (List.Chain'.tail hrun)
      rw [hs, hd32]
    · rw [if_neg hd]
      rw [ih (fun c hc hw => h32 c (List.mem_cons_of_mem d hc) hw) (List.Chain'.tail hrun)]

theorem collapseGo_length_le (t : Str) (b : Bool) : (collapseGo b t).length ≤ t.length := by
  induction t generalizing b with
  | nil => simp [collapseGo]
  | cons d s ih =>
    unfold collapseGo
    by_cases hd : isWs d
    · rw [if_pos hd]
      by_cases hb : b
      · subst hb
        rw [if_pos rfl]
        exact (ih true).trans (by simp)
      · rw [Bool.not_eq_true] at hb
        subst hb
        rw [if_neg (by simp)]
        simpa using ih true
    · rw [if_neg hd]
      simpa using ih false

theorem head_dropWhileWs {l : Str} {c : Nat} (h : (l.dropWhile isWs).head? = some c) :
    isWs c = false := by
  induction l with
  | nil => simp at h
  | cons d s ih =>
    rw [List.dropWhile_cons] at h
    by_cases hd : isWs d
    · rw [if_pos (by simp [hd])] at h
      exact ih h
    · rw [if_neg (by simpa using hd)] at h
      simp only [List.head?_cons, Option.some.injEq] at h
      subst h
      simpa using hd

theorem jsTrim_sublist (t : Str) : List.Sublist (jsTrim t) t := by
  unfold jsTrim
  have h1 : List.Sublist (List.dropWhile isWs (List.dropWhile isWs t).reverse)
      (List.dropWhile isWs t).reverse := List.dropWhile_sublist isWs
  have h2 : List.Sublist (List.dropWhile isWs (List.dropWhile isWs t).reverse).reverse
      (List.dropWhile isWs t).reverse.reverse := by
    rw [List.reverse_sublist]
    exact h1
  rw [List.reverse_reverse] at h2
  exact h2.trans (List.dropWhile_sublist isWs)

theorem jsTrim_length_le (t : Str) : (jsTrim t).length ≤ t.length :=
  (jsTrim_sublist t).length_le

theorem jsTrim_subset {t : Str} {c : Nat} (h : c ∈ jsTrim t) : c ∈ t :=
  (jsTrim_sublist t).subset h

theorem jsTrim_trimmed (t : Str) : trimmedStr (jsTrim t) := by
  constructor
  · intro c hc
    unfold jsTrim at hc
    rw [List.head?_reverse] at hc
    by_cases hv : List.dropWhile isWs (List.dropWhile isWs t).reverse = []
    · rw [hv] at hc
      simp at hc
    · have hsplit := List.takeWhile_append_dropWhile (p := isWs)
        (l := (List.dropWhile isWs t).reverse)
      have hlast : (List.dropWhile isWs (List.dropWhile isWs t).reverse).getLast? =
          ((List.dropWhile isWs t).reverse).getLast? := by
        conv_rhs => rw [← hsplit]
        rw [List.getLast?_append]
        cases hv2 : (List.dropWhile isWs (List.dropWhile isWs t).reverse).getLast? with
        | none => exact absurd (List.getLast?_eq_none_iff.mp hv2) hv
        | some x => simp
      rw [hlast, List.getLast?_reverse] at hc
      exact head_dropWhileWs hc
  · intro c hc
    unfold jsTrim at hc
    rw [List.getLast?_reverse] at hc
    exact head_dropWhileWs hc

theorem dropWhileWs_eq_self {t : Str} (h : ∀ c ∈ t.head?, isWs c = false) :
    t.dropWhile isWs = t := by
  cases t with
  | nil => rfl
  | cons d s =>
    rw [List.dropWhile_cons, if_neg]
    simp [h d rfl]

theorem jsTrim_eq_self {t : Str} (h : trimmedStr t) : jsTrim t = t := by
  unfold jsTrim
  rw [dropWhileWs_eq_self h.1]
  rw [dropWhileWs_eq_self (by
    intro c hc
    rw [List.head?_reverse] at hc
    exact h.2 c hc)]
  exact List.reverse_reverse t

theorem noWsRun_reverse {t : Str} (h : noWsRun t) : noWsRun t.reverse := by
  unfold noWsRun at h ⊢
  rw [List.chain'_reverse]
  exact h.imp (fun a b hab hcon => hab ⟨hcon.2, hcon.1⟩)

theorem noWsRun_dropWhile {t : Str} (h : noWsRun t) : noWsRun (t.dropWhile isWs) := by
  have hsplit := List.takeWhile_append_dropWhile (p := isWs) (l := t)
  unfold noWsRun at h ⊢
  have := List.chain'_append.mp (by rw [hsplit]; exact h)
  exact this.2.1

theorem jsTrim_noRun {t : Str} (h : noWsRun t) : noWsRun (jsTrim t) := by
  unfold jsTrim
  exact noWsRun_reverse (noWsRun_dropWhile (noWsRun_reverse (noWsRun_dropWhile h)))

theorem jsTrim_ws32 {t : Str} (h : wsOnly32 t) : wsOnly32 (jsTrim t) :=
  fun c hc hw => h c (jsTrim_subset hc) hw

theorem nk_trimmed (s : Str) : trimmedStr (normalizeKeyword s) := jsTrim_trimmed _

theorem nk_ws32 (s : Str) : wsOnly32 (normalizeKeyword s) := by
  unfold normalizeKeyword collapseWs
  exact jsTrim_ws32 (collapseGo_ws32 _ false)

theorem nk_noRun (s : Str) : noWsRun (normalizeKeyword s) := by
  unfold normalizeKeyword collapseWs
  exact jsTrim_noRun (collapseGo_noRun _ false)

theorem nk_mem {s : Str} {c : Nat} (h : c ∈ normalizeKeyword s) :
    c = 32 ∨ (isAllowed c = true ∧ ∃ d, c = lc d) := by
  unfold normalizeKeyword collapseWs at h
  have h1 := jsTrim_subset h
  rcases collapseGo_mem h1 with h32 | h2
  · exact Or.inl h32
  · rw [List.mem_filter] at h2
    obtain ⟨hmem, hall⟩ := h2
    unfold lcs at hmem
    obtain ⟨d, _, hd⟩ := List.mem_map.mp hmem
    exact Or.inr ⟨hall, d, hd.symm⟩

theorem nk_allowed (s : Str) : ∀ c ∈ normalizeKeyword s, isAllowed c = true := by
  intro c hc
  rcases nk_mem hc with rfl | ⟨h, _⟩
  · decide
  · exact h

theorem nk_noUpper (s : Str) : ∀ c ∈ normalizeKeyword s, ¬ (65 ≤ c ∧ c ≤ 90) := by
  intro c hc
  rcases nk_mem hc with rfl | ⟨_, d, rfl⟩
  · omega
  · exact lc_no_upper d

theorem nk_length_le (s : Str) : (normalizeKeyword s).length ≤ s.length := by
  unfold normalizeKeyword collapseWs
  calc (jsTrim (collapseGo false (List.filter isAllowed (lcs (jsTrim s))))).length
      ≤ (collapseGo false (List.filter isAllowed (lcs (jsTrim s)))).length :=
        jsTrim_length_le _
    _ ≤ (List.filter isAllowed (lcs (jsTrim s))).length := collapseGo_length_le _ false
    _ ≤ (lcs (jsTrim s)).length := List.length_filter_le _ _
    _ = (jsTrim s).length := by simp [lcs]
    _ ≤ s.length := jsTrim_length_le s

/-- `normalizeKeyword` is idempotent. -/
theorem nk_idem (s : Str) : normalizeKeyword (normalizeKeyword s) = normalizeKeyword s := by
  have htrim : jsTrim (normalizeKeyword s) = normalizeKeyword s :=
    jsTrim_eq_self (nk_trimmed s)
  have hmap : lcs (normalizeKeyword s) = normalizeKeyword s := by
    unfold lcs
    rw [List.map_congr_left (fun c hc => lc_fix (nk_noUpper s c hc))]
    exact List.map_id _
  have hfil : List.filter isAllowed (normalizeKeyword s) = normalizeKeyword s :=
    List.filter_eq_self.mpr (nk_allowed s)
  have hcol : collapseWs (normalizeKeyword s) = normalizeKeyword s := by
    unfold collapseWs
    exact collapseGo_eq_self (nk_ws32 s) (nk_noRun s)
  show jsTrim (collapseWs (List.filter isAllowed (lcs (jsTrim (normalizeKeyword s))))) =
    normalizeKeyword s
  rw [htrim, hmap, hfil, hcol, htrim]

/-! ## `parseKeywordCsv` -/

theorem dedupeGo_eq_firstSeen (key : String) (m : Nat) (pieces : List Str)
    (hnorm : ∀ v ∈ pieces, normalizeKeyword v = v) :
    ∀ acc, dedupeGo key m (pieces.map JsValue.jstr) acc =
      Except.ok (dedupeFirstSeen m pieces acc) := by
  induction pieces with
  | nil => intro acc; rfl
  | cons v rest ih =>
    intro acc
    have hv : normalizeKeyword v = v := hnorm v (List.mem_cons_self v rest)
    have ihr := ih (fun w hw => hnorm w (List.mem_cons_of_mem v hw))
    rw [List.map_cons]
    simp only [dedupeGo, dedupeFirstSeen, hv]
    by_cases hskip : v = [] ∨ v ∈ acc
    · have hskip' : (v.isEmpty || decide (v ∈ acc)) = true := by
        simp only [Bool.or_eq_true, List.isEmpty_iff, decide_eq_true_eq]
        exact hskip
      rw [if_pos hskip', if_pos hskip]
      exact ihr acc
    · have hskip' : ¬ (v.isEmpty || decide (v ∈ acc)) = true := by
        simp only [Bool.or_eq_true, List.isEmpty_iff, decide_eq_true_eq]
        exact hskip
      rw [if_neg hskip', if_neg hskip]
      by_cases hcap : m ≤ (acc ++ [v]).length
      · rw [if_pos hcap, if_pos hcap]
      · rw [if_neg hcap, if_neg hcap]
        exact ihr (acc ++ [v])

theorem csvPieces_norm (s : Str) : ∀ v ∈ csvPieces s, normalizeKeyword v = v := by
  intro v hv
  unfold csvPieces at hv
  rw [List.mem_filter] at hv
  obtain ⟨hmem, _⟩ := hv
  obtain ⟨w, _, hw⟩ := List.mem_map.mp hmem
  rw [← hw]
  exact nk_idem w

theorem parseKeywordCsv_error_iff (s : Str) :
    parseKeywordCsv s = Except.error (invalidCode "keywordsCsv") ↔ csvPieces s = [] := by
  unfold parseKeywordCsv
  by_cases h : (csvPieces s).isEmpty
  · rw [if_pos h]
    simp [List.isEmpty_iff.mp h]
  · rw [if_neg h]
    rw [dedupeGo_eq_firstSeen "supportingKeywords" 16 (csvPieces s) (csvPieces_norm s) []]
    constructor
    · intro hcon
      exact absurd hcon (by simp)
    · intro hcon
      exact absurd (List.isEmpty_iff.mpr hcon) h

theorem parseKeywordCsv_ok {s : Str} {l : List Str} (h : parseKeywordCsv s = Except.ok l) :
    l = dedupeFirstSeen 16 (csvPieces s) [] := by
  unfold parseKeywordCsv at h
  by_cases he : (csvPieces s).isEmpty
  · rw [if_pos he] at h
    exact absurd h (by simp)
  · rw [if_neg he,
      dedupeGo_eq_firstSeen "supportingKeywords" 16 (csvPieces s) (csvPieces_norm s) []] at h
    exact (Except.ok.injEq .. ▸ h).symm

/-- C8: `parseKeywordCsv` splits on commas and newlines, normalizes each
piece, deduplicates keeping first-seen order without re-normalizing, fails
with `invalid_keywordsCsv` exactly when no non-empty piece remains, and on
the documented example returns the three expected keywords. -/
theorem c8_parse_keyword_csv :
    parseKeywordCsv (str "wedding gift, bridesmaid gift\nhandmade box") =
        Except.ok [str "wedding gift", str "bridesmaid gift", str "handmade box"] ∧
      (∀ s : Str, parseKeywordCsv s = Except.error (invalidCode "keywordsCsv") ↔
        csvPieces s = []) ∧
      ∀ (s : Str) (l : List Str), parseKeywordCsv s = Except.ok l →
        l = dedupeFirstSeen 16 (csvPieces s) [] :=
  ⟨by decide, parseKeywordCsv_error_iff, fun _ _ h => parseKeywordCsv_ok h⟩

/-- Witness for C8 at concrete inputs. -/
theorem c8_parse_keyword_csv_witness :
    [str "a", str "b"] = dedupeFirstSeen 16 (csvPieces (str "a,,b,a")) [] ∧
      parseKeywordCsv (str " , ") = Except.error (invalidCode "keywordsCsv") :=
  ⟨c8_parse_keyword_csv.2.2 (str "a,,b,a") [str "a", str "b"] (by decide),
   (c8_parse_keyword_csv.2.1 (str " , ")).mpr (by decide)⟩

/-! ## Inverting `sanitizeListingInput` -/

theorem bind_ok_inv {α β : Type} {x : Except JsErr α} {f : α → Except JsErr β} {b : β}
    (h : (x >>= f) = Except.ok b) : ∃ a, x = Except.ok a ∧ f a = Except.ok b := by
  cases x with
  | error e => simp [Bind.bind, Except.bind] at h
  | ok a => exact ⟨a, rfl, by simpa [Bind.bind, Except.bind] using h⟩

theorem bind_error_of_error {α β : Type} {x : Except JsErr α} {f : α → Except JsErr β} {e : JsErr}
    (h : x = Except.error e) : (x >>= f) = Except.error e := by
  rw [h]
  rfl

theorem bind_ok_step {α β : Type} {x : Except JsErr α} {f : α → Except JsErr β} {a : α}
    (h : x = Except.ok a) : (x >>= f) = f a := by
  rw [h]
  rfl

theorem normalizePhrase_ok_inv {v : JsValue} {key : String} {m : Nat} {t : Str}
    (h : normalizePhrase v key m = Except.ok t) :
    t ≠ [] ∧ t.length ≤ m ∧ ∃ s, v = JsValue.jstr s ∧ t = collapseWs (jsTrim s) := by
  cases v with
  | jstr s =>
    dsimp only [normalizePhrase] at h
    by_cases hc : ((collapseWs (jsTrim s)).isEmpty ||
        decide (m < (collapseWs (jsTrim s)).length)) = true
    · rw [if_pos hc] at h
      exact absurd h (by simp)
    · rw [if_neg hc] at h
      simp only [Bool.or_eq_true, List.isEmpty_iff, decide_eq_true_eq, not_or, not_lt] at hc
      have ht : t = collapseWs (jsTrim s) := (Except.ok.injEq .. ▸ h).symm
      subst ht
      exact ⟨hc.1, hc.2, s, rfl, rfl⟩
  | jnum n => exact absurd h (by simp [normalizePhrase])
  | jbool b => exact absurd h (by simp [normalizePhrase])
  | jnull => exact absurd h (by simp [normalizePhrase])
  | jarr items => exact absurd h (by simp [normalizePhrase])

theorem normalizeDays_ok_inv {v : JsValue} {d : Int} (h : normalizeDays v = Except.ok d) :
    1 ≤ d ∧ d ≤ 45 := by
  cases v with
  | jnum n =>
    dsimp only [normalizeDays] at h
    by_cases hc : n < 1 ∨ 45 < n
    · rw [if_pos hc] at h
      exact absurd h (by simp)
    · rw [if_neg hc] at h
      have : d = n := (Except.ok.injEq .. ▸ h).symm
      subst this
      omega
  | jstr s => exact absurd h (by simp [normalizeDays])
  | jbool b => exact absurd h (by simp [normalizeDays])
  | jnull => exact absurd h (by simp [normalizeDays])
  | jarr items => exact absurd h (by simp [normalizeDays])

theorem dedupeGo_ok_length {key : String} {m : Nat} :
    ∀ (items : List JsValue) (acc res : List Str), acc.length < m →
      dedupeGo key m items acc = Except.ok res → res.length ≤ m := by
  intro items
  induction items with
  | nil =>
    intro acc res hlt h
    have : res = acc := (Except.ok.injEq .. ▸ h).symm
    subst this
    omega
  | cons v rest ih =>
    intro acc res hlt h
    cases v with
    | jstr s =>
      simp only [dedupeGo] at h
      by_cases hskip : ((normalizeKeyword s).isEmpty ||
          decide (normalizeKeyword s ∈ acc)) = true
      · rw [if_pos hskip] at h
        exact ih acc res hlt h
      · rw [if_neg hskip] at h
        by_cases hcap : m ≤ (acc ++ [normalizeKeyword s]).length
        · rw [if_pos hcap] at h
          have : res = acc ++ [normalizeKeyword s] := (Except.ok.injEq .. ▸ h).symm
          subst this
          simp only [List.length_append, List.length_singleton]
          omega
        · rw [if_neg hcap] at h
          refine ih _ res ?_ h
          simp only [List.length_append, List.length_singleton] at hcap ⊢
          omega
    | jnum n => exact absurd h (by simp [dedupeGo])
    | jbool b => exact absurd h (by simp [dedupeGo])
    | jnull => exact absurd h (by simp [dedupeGo])
    | jarr its => exact absurd h (by simp [dedupeGo])

theorem dedupePhrases_ok_length {v : JsValue} {m : Nat} {key : String} {res : List Str}
    (hm : 0 < m) (h : dedupePhrases v m key = Except.ok res) : res.length ≤ m := by
  cases v with
  | jarr items => exact dedupeGo_ok_length items [] res (by simpa using hm) h
  | jstr s => exact absurd h (by simp [dedupePhrases])
  | jnum n => exact absurd h (by simp [dedupePhrases])
  | jbool b => exact absurd h (by simp [dedupePhrases])
  | jnull => exact absurd h (by simp [dedupePhrases])

/-- A successful sanitization yields a fully validated input whose primary
keyword is in keyword-normal form. -/
theorem sanitize_ok_valid {raw : RawInput} {v : ListingInput}
    (h : sanitizeListingInput raw = Except.ok v) : Valid v := by
  unfold sanitizeListingInput at h
  obtain ⟨sn, hsn, h⟩ := bind_ok_inv h
  try dsimp only at h
  obtain ⟨pt0, hpt, h⟩ := bind_ok_inv h
  try dsimp only at h
  obtain ⟨ta0, hta, h⟩ := bind_ok_inv h
  try dsimp only at h
  obtain ⟨pk0, hpk, h⟩ := bind_ok_inv h
  try dsimp only at h
  by_cases hpk0 : (normalizeKeyword pk0).isEmpty = true
  · rw [if_pos hpk0] at h
    exact absurd h (by simp)
  · rw [if_neg hpk0] at h
    obtain ⟨sk, hsk, h⟩ := bind_ok_inv h
    try dsimp only at h
    by_cases hske : sk.isEmpty = true
    · rw [if_pos hske] at h
      exact absurd h (by simp)
    · rw [if_neg hske] at h
      obtain ⟨mats, hmats, h⟩ := bind_ok_inv h
      try dsimp only at h
      obtain ⟨tn, htn, h⟩ := bind_ok_inv h
      try dsimp only at h
      obtain ⟨pb, hpb, h⟩ := bind_ok_inv h
      try dsimp only at h
      obtain ⟨days, hdays, h⟩ := bind_ok_inv h
      try dsimp only at h
      have hv : ListingInput.mk sn (lcs pt0) (lcs ta0) (normalizeKeyword pk0) sk mats tn pb
          days (normalizeBoolean raw.personalization)
          (normalizeBoolean raw.includeUkSpelling) = v :=
        Except.ok.injEq .. ▸ h
      subst hv
      obtain ⟨hsn1, hsn2, _⟩ := normalizePhrase_ok_inv hsn
      obtain ⟨hpt1, hpt2, _⟩ := normalizePhrase_ok_inv hpt
      obtain ⟨hta1, hta2, _⟩ := normalizePhrase_ok_inv hta
      obtain ⟨hpk1, hpk2, _⟩ := normalizePhrase_ok_inv hpk
      obtain ⟨hd1, hd2⟩ := normalizeDays_ok_inv hdays
      refine ⟨hsn1, hsn2, ?_, ?_, ?_, ?_, ?_, ?_, ?_, ?_, ?_, ?_, hd1, hd2⟩
      · simpa [lcs] using hpt1
      · simpa [lcs] using hpt2
      · simpa [lcs] using hta1
      · simpa [lcs] using hta2
      · simpa [List.isEmpty_iff] using hpk0
      · exact (nk_length_le pk0).trans hpk2
      · exact nk_idem pk0
      · simpa [List.isEmpty_iff] using hske
      · exact dedupePhrases_ok_length (by omega) hsk
      · exact dedupePhrases_ok_length (by omega) hmats

/-- C7: when the earlier phrase fields sanitize and the supporting-keyword
list deduplicates to empty, `sanitizeListingInput` fails with
`invalid_supportingKeywords`; and sanitization is all-or-nothing — every
run either fails with an error or returns a fully validated input. -/
theorem c7_sanitize_empty_keywords_atomic :
    (∀ raw : RawInput,
        (∃ t, normalizePhrase raw.shopName "shopName" 80 = Except.ok t) →
        (∃ t, normalizePhrase raw.productType "productType" 80 = Except.ok t) →
        (∃ t, normalizePhrase raw.targetAudience "targetAudience" 80 = Except.ok t) →
        (∃ t, normalizePhrase raw.primaryKeyword "primaryKeyword" 80 = Except.ok t ∧
          normalizeKeyword t ≠ []) →
        dedupePhrases raw.supportingKeywords 16 "supportingKeywords" = Except.ok [] →
        sanitizeListingInput raw = Except.error (invalidCode "supportingKeywords")) ∧
      ∀ raw : RawInput, (∃ e, sanitizeListingInput raw = Except.error e) ∨
        ∃ v, sanitizeListingInput raw = Except.ok v ∧ Valid v := by
  constructor
  · intro raw hsn hpt hta hpk hsk
    obtain ⟨sn, hsn⟩ := hsn
    obtain ⟨pt, hpt⟩ := hpt
    obtain ⟨ta, hta⟩ := hta
    obtain ⟨pk, hpk, hpknk⟩ := hpk
    unfold sanitizeListingInput
    rw [bind_ok_step hsn]
    try dsimp only
    rw [bind_ok_step hpt]
    try dsimp only
    rw [bind_ok_step hta]
    try dsimp only
    rw [bind_ok_step hpk]
    try dsimp only
    rw [if_neg (by simpa [List.isEmpty_iff] using hpknk)]
    rw [bind_ok_step hsk]
    rfl
  · intro raw
    cases hres : sanitizeListingInput raw with
    | error e => exact Or.inl ⟨e, rfl⟩
    | ok v => exact Or.inr ⟨v, rfl, sanitize_ok_valid hres⟩

/-- Witness for C7: the repository's own test input with an empty
supporting-keyword list fails with `invalid_supportingKeywords`, and the
valid test input sanitizes to a fully validated value. -/
theorem c7_sanitize_witness :
    sanitizeListingInput rawNoKeywords = Except.error (invalidCode "supportingKeywords") ∧
      ∃ v, sanitizeListingInput rawRingDish = Except.ok v ∧ Valid v := by
  constructor
  · exact c7_sanitize_empty_keywords_atomic.1 rawNoKeywords
      ⟨str "Northwind", by decide⟩ ⟨str "print", by decide⟩ ⟨str "pet owners", by decide⟩
      ⟨str "dog memorial print", by decide, by decide⟩ (by decide)
  · refine (c7_sanitize_empty_keywords_atomic.2 rawRingDish).resolve_left ?_
    rintro ⟨e, he⟩
    rw [show sanitizeListingInput rawRingDish = Except.ok inRingDish from by decide] at he
    cases he

theorem dedupeGo_nonstring_head {v : JsValue} (h : ∀ s, v ≠ JsValue.jstr s)
    (key : String) (m : Nat) (rest : List JsValue) (acc : List Str) :
    dedupeGo key m (v :: rest) acc = Except.error (invalidCode key) := by
  cases v with
  | jstr s => exact absurd rfl (h s)
  | jnum n => rfl
  | jbool b => rfl
  | jnull => rfl
  | jarr items => rfl

theorem dedupeGo_append (key : String) (m : Nat) (l : List JsValue) :
    ∀ (pre : List JsValue) (acc acc' : List Str),
      dedupeGo key m pre acc = Except.ok acc' → acc'.length < m →
      dedupeGo key m (pre ++ l) acc = dedupeGo key m l acc' := by
  intro pre
  induction pre with
  | nil =>
    intro acc acc' h hlt
    have hacc : acc = acc' := by simpa [dedupeGo] using h
    rw [List.nil_append, hacc]
  | cons v rest ih =>
    intro acc acc' h hlt
    cases v with
    | jstr s =>
      rw [List.cons_append]
      simp only [dedupeGo] at h ⊢
      by_cases hskip :
          ((normalizeKeyword s).isEmpty || decide (normalizeKeyword s ∈ acc)) = true
      · rw [if_pos hskip] at h ⊢
        exact ih acc acc' h hlt
      · rw [if_neg hskip] at h ⊢
        by_cases hcap : m ≤ (acc ++ [normalizeKeyword s]).length
        · rw [if_pos hcap] at h
          exfalso
          have heq : acc ++ [normalizeKeyword s] = acc' := Except.ok.injEq .. ▸ h
          rw [← heq] at hlt
          omega
        · rw [if_neg hcap] at h ⊢
          exact ih (acc ++ [normalizeKeyword s]) acc' h hlt
    | jnum n =>
      rw [dedupeGo_nonstring_head (fun s hs => JsValue.noConfusion hs) key m rest acc] at h
      exact Except.noConfusion h
    | jbool b =>
      rw [dedupeGo_nonstring_head (fun s hs => JsValue.noConfusion hs) key m rest acc] at h
      exact Except.noConfusion h
    | jnull =>
      rw [dedupeGo_nonstring_head (fun s hs => JsValue.noConfusion hs) key m rest acc] at h
      exact Except.noConfusion h
    | jarr items =>
      rw [dedupeGo_nonstring_head (fun s hs => JsValue.noConfusion hs) key m rest acc] at h
      exact Except.noConfusion h

theorem normalizeBoolean_false {w : JsValue} (h : w ≠ JsValue.jbool true) :
    normalizeBoolean w = false := by
  cases w with
  | jbool b =>
    cases b with
    | true => exact absurd rfl h
    | false => rfl
  | jstr s => rfl
  | jnum n => rfl
  | jnull => rfl
  | jarr items => rfl

theorem sanitize_personalization_coerce (raw : RawInput) {w : JsValue}
    (h : w ≠ JsValue.jbool true) :
    sanitizeListingInput { raw with personalization := w } =
      sanitizeListingInput { raw with personalization := JsValue.jbool false } := by
  have hw : normalizeBoolean w = normalizeBoolean (JsValue.jbool false) :=
    (normalizeBoolean_false h).trans rfl
  unfold sanitizeListingInput
  dsimp only
  rw [hw]

theorem sanitize_uk_coerce (raw : RawInput) {w : JsValue}
    (h : w ≠ JsValue.jbool true) :
    sanitizeListingInput { raw with includeUkSpelling := w } =
      sanitizeListingInput { raw with includeUkSpelling := JsValue.jbool false } := by
  have hw : normalizeBoolean w = normalizeBoolean (JsValue.jbool false) :=
    (normalizeBoolean_false h).trans rfl
  unfold sanitizeListingInput
  dsimp only
  rw [hw]

theorem sanitize_ok_booleans {raw : RawInput} {v : ListingInput}
    (h : sanitizeListingInput raw = Except.ok v) :
    v.personalization = normalizeBoolean raw.personalization ∧
      v.includeUkSpelling = normalizeBoolean raw.includeUkSpelling := by
  unfold sanitizeListingInput at h
  obtain ⟨sn, hsn, h⟩ := bind_ok_inv h
  try dsimp only at h
  obtain ⟨pt0, hpt, h⟩ := bind_ok_inv h
  try dsimp only at h
  obtain ⟨ta0, hta, h⟩ := bind_ok_inv h
  try dsimp only at h
  obtain ⟨pk0, hpk, h⟩ := bind_ok_inv h
  try dsimp only at h
  by_cases hpk0 : (normalizeKeyword pk0).isEmpty = true
  · rw [if_pos hpk0] at h
    exact absurd h (by simp)
  · rw [if_neg hpk0] at h
    obtain ⟨sk, hsk, h⟩ := bind_ok_inv h
    try dsimp only at h
    by_cases hske : sk.isEmpty = true
    · rw [if_pos hske] at h
      exact absurd h (by simp)
    · rw [if_neg hske] at h
      obtain ⟨mats, hmats, h⟩ := bind_ok_inv h
      try dsimp only at h
      obtain ⟨tn, htn, h⟩ := bind_ok_inv h
      try dsimp only at h
      obtain ⟨pb, hpb, h⟩ := bind_ok_inv h
      try dsimp only at h
      obtain ⟨days, hdays, h⟩ := bind_ok_inv h
      try dsimp only at h
      have hv : ListingInput.mk sn (lcs pt0) (lcs ta0) (normalizeKeyword pk0) sk mats tn pb
          days (normalizeBoolean raw.personalization)
          (normalizeBoolean raw.includeUkSpelling) = v :=
        Except.ok.injEq .. ▸ h
      subst hv
      exact ⟨rfl, rfl⟩

/-- C9 counterexample: a raw input whose `shopName` has the wrong
structural type (a number) makes `sanitizeListingInput` raise the runtime
`TypeError` of `.trim()`, not the field-scoped code `invalid_shopName`
that the claim asserts. -/
theorem c9_counterexample :
    sanitizeListingInput rawBadShopName = Except.error JsErr.typeErr ∧
      JsErr.typeErr ≠ invalidCode "shopName" :=
  ⟨by decide, by decide⟩

/-- C9 (amended): once the earlier fields sanitize, a wrong-typed
`supportingKeywords` — not an array, or an array with a non-string entry
reached before the 16-keyword cap — fails with the field-scoped code
`invalid_supportingKeywords`; but a phrase field of wrong structural type
(`shopName`, `primaryKeyword` or `priceBand` not a string) makes
`sanitizeListingInput` raise the runtime `TypeError` of `.trim()` rather
than a field-scoped `invalid_<fieldName>` code; and a wrong-typed
`personalization` or `includeUkSpelling` never fails: it is treated
exactly like the boolean `false`, and a successful run coerces it to
`false`. -/
theorem c9_wrong_type_errors :
    (∀ raw : RawInput, (∀ s, raw.shopName ≠ JsValue.jstr s) →
        sanitizeListingInput raw = Except.error JsErr.typeErr) ∧
    (∀ raw : RawInput,
        (∃ t, normalizePhrase raw.shopName "shopName" 80 = Except.ok t) →
        (∃ t, normalizePhrase raw.productType "productType" 80 = Except.ok t) →
        (∃ t, normalizePhrase raw.targetAudience "targetAudience" 80 = Except.ok t) →
        (∀ s, raw.primaryKeyword ≠ JsValue.jstr s) →
        sanitizeListingInput raw = Except.error JsErr.typeErr) ∧
    (∀ raw : RawInput,
        (∃ t, normalizePhrase raw.shopName "shopName" 80 = Except.ok t) →
        (∃ t, normalizePhrase raw.productType "productType" 80 = Except.ok t) →
        (∃ t, normalizePhrase raw.targetAudience "targetAudience" 80 = Except.ok t) →
        (∃ t, normalizePhrase raw.primaryKeyword "primaryKeyword" 80 = Except.ok t ∧
          normalizeKeyword t ≠ []) →
        (∃ l, dedupePhrases raw.supportingKeywords 16 "supportingKeywords" = Except.ok l ∧
          l ≠ []) →
        (∃ l, dedupePhrases raw.materials 12 "materials" = Except.ok l) →
        (∃ tn, normalizeTone raw.tone = Except.ok tn) →
        (∀ s, raw.priceBand ≠ JsValue.jstr s) →
        sanitizeListingInput raw = Except.error JsErr.typeErr) ∧
    (∀ raw : RawInput,
        (∃ t, normalizePhrase raw.shopName "shopName" 80 = Except.ok t) →
        (∃ t, normalizePhrase raw.productType "productType" 80 = Except.ok t) →
        (∃ t, normalizePhrase raw.targetAudience "targetAudience" 80 = Except.ok t) →
        (∃ t, normalizePhrase raw.primaryKeyword "primaryKeyword" 80 = Except.ok t ∧
          normalizeKeyword t ≠ []) →
        (∀ items, raw.supportingKeywords ≠ JsValue.jarr items) →
        sanitizeListingInput raw = Except.error (invalidCode "supportingKeywords")) ∧
    (∀ (raw : RawInput) (pre : List JsValue) (bad : JsValue) (rest : List JsValue)
        (acc : List Str),
        (∃ t, normalizePhrase raw.shopName "shopName" 80 = Except.ok t) →
        (∃ t, normalizePhrase raw.productType "productType" 80 = Except.ok t) →
        (∃ t, normalizePhrase raw.targetAudience "targetAudience" 80 = Except.ok t) →
        (∃ t, normalizePhrase raw.primaryKeyword "primaryKeyword" 80 = Except.ok t ∧
          normalizeKeyword t ≠ []) →
        raw.supportingKeywords = JsValue.jarr (pre ++ bad :: rest) →
        (∀ s, bad ≠ JsValue.jstr s) →
        dedupeGo "supportingKeywords" 16 pre [] = Except.ok acc →
        acc.length < 16 →
        sanitizeListingInput raw = Except.error (invalidCode "supportingKeywords")) ∧
    (∀ (raw : RawInput) (w : JsValue), w ≠ JsValue.jbool true →
        sanitizeListingInput { raw with personalization := w } =
          sanitizeListingInput { raw with personalization := JsValue.jbool false } ∧
        sanitizeListingInput { raw with includeUkSpelling := w } =
          sanitizeListingInput { raw with includeUkSpelling := JsValue.jbool false }) ∧
    (∀ (raw : RawInput) (v : ListingInput), sanitizeListingInput raw = Except.ok v →
        (raw.personalization ≠ JsValue.jbool true → v.personalization = false) ∧
        (raw.includeUkSpelling ≠ JsValue.jbool true → v.includeUkSpelling = false)) := by
  refine ⟨?_, ?_, ?_, ?_, ?_, ?_, ?_⟩
  · intro raw hns
    have herr : normalizePhrase raw.shopName "shopName" 80 = Except.error JsErr.typeErr := by
      cases hv : raw.shopName with
      | jstr s => exact absurd hv (hns s)
      | jnum n => rfl
      | jbool b => rfl
      | jnull => rfl
      | jarr items => rfl
    unfold sanitizeListingInput
    exact bind_error_of_error herr
  · intro raw hsn hpt hta hnspk
    obtain ⟨sn, hsn⟩ := hsn
    obtain ⟨pt, hpt⟩ := hpt
    obtain ⟨ta, hta⟩ := hta
    have herr : normalizePhrase raw.primaryKeyword "primaryKeyword" 80 =
        Except.error JsErr.typeErr := by
      cases hv : raw.primaryKeyword with
      | jstr s => exact absurd hv (hnspk s)
      | jnum n => rfl
      | jbool b => rfl
      | jnull => rfl
      | jarr items => rfl
    unfold sanitizeListingInput
    rw [bind_ok_step hsn]
    try dsimp only
    rw [bind_ok_step hpt]
    try dsimp only
    rw [bind_ok_step hta]
    try dsimp only
    exact bind_error_of_error herr
  · intro raw hsn hpt hta hpk hsk hmats htn hnspb
    obtain ⟨sn, hsn⟩ := hsn
    obtain ⟨pt, hpt⟩ := hpt
    obtain ⟨ta, hta⟩ := hta
    obtain ⟨pk, hpk, hpknk⟩ := hpk
    obtain ⟨sk, hsk, hskne⟩ := hsk
    obtain ⟨mats, hmats⟩ := hmats
    obtain ⟨tn, htn⟩ := htn
    have herr : normalizePhrase raw.priceBand "priceBand" 80 =
        Except.error JsErr.typeErr := by
      cases hv : raw.priceBand with
      | jstr s => exact absurd hv (hnspb s)
      | jnum n => rfl
      | jbool b => rfl
      | jnull => rfl
      | jarr items => rfl
    unfold sanitizeListingInput
    rw [bind_ok_step hsn]
    try dsimp only
    rw [bind_ok_step hpt]
    try dsimp only
    rw [bind_ok_step hta]
    try dsimp only
    rw [bind_ok_step hpk]
    try dsimp only
    rw [if_neg (by simpa [List.isEmpty_iff] using hpknk)]
    rw [bind_ok_step hsk]
    try dsimp only
    rw [if_neg (by simpa [List.isEmpty_iff] using hskne)]
    rw [bind_ok_step hmats]
    try dsimp only
    rw [bind_ok_step htn]
    try dsimp only
    exact bind_error_of_error herr
  · intro raw hsn hpt hta hpk hnarr
    obtain ⟨sn, hsn⟩ := hsn
    obtain ⟨pt, hpt⟩ := hpt
    obtain ⟨ta, hta⟩ := hta
    obtain ⟨pk, hpk, hpknk⟩ := hpk
    have herr : dedupePhrases raw.supportingKeywords 16 "supportingKeywords" =
        Except.error (invalidCode "supportingKeywords") := by
      cases hv : raw.supportingKeywords with
      | jarr items => exact absurd hv (hnarr items)
      | jstr s => rfl
      | jnum n => rfl
      | jbool b => rfl
      | jnull => rfl
    unfold sanitizeListingInput
    rw [bind_ok_step hsn]
    try dsimp only
    rw [bind_ok_step hpt]
    try dsimp only
    rw [bind_ok_step hta]
    try dsimp only
    rw [bind_ok_step hpk]
    try dsimp only
    rw [if_neg (by simpa [List.isEmpty_iff] using hpknk)]
    exact bind_error_of_error herr
  · intro raw pre bad rest acc hsn hpt hta hpk harr hbad hpre hlt
    obtain ⟨sn, hsn⟩ := hsn
    obtain ⟨pt, hpt⟩ := hpt
    obtain ⟨ta, hta⟩ := hta
    obtain ⟨pk, hpk, hpknk⟩ := hpk
    have herr : dedupePhrases raw.supportingKeywords 16 "supportingKeywords" =
        Except.error (invalidCode "supportingKeywords") := by
      rw [harr]
      dsimp only [dedupePhrases]
      rw [dedupeGo_append "supportingKeywords" 16 (bad :: rest) pre [] acc hpre hlt]
      exact dedupeGo_nonstring_head hbad "supportingKeywords" 16 rest acc
    unfold sanitizeListingInput
    rw [bind_ok_step hsn]
    try dsimp only
    rw [bind_ok_step hpt]
    try dsimp only
    rw [bind_ok_step hta]
    try dsimp only
    rw [bind_ok_step hpk]
    try dsimp only
    rw [if_neg (by simpa [List.isEmpty_iff] using hpknk)]
    exact bind_error_of_error herr
  · intro raw w hw
    exact ⟨sanitize_personalization_coerce raw hw, sanitize_uk_coerce raw hw⟩
  · intro raw v hok
    obtain ⟨hp, hu⟩ := sanitize_ok_booleans hok
    constructor
    · intro hne
      rw [hp, normalizeBoolean_false hne]
    · intro hne
      rw [hu, normalizeBoolean_false hne]

/-- Witness for C9 (amended): every part of the theorem exercised at a
concrete input. -/
theorem c9_wrong_type_witness :
    sanitizeListingInput rawBadShopName = Except.error JsErr.typeErr ∧
      sanitizeListingInput rawBadPrimary = Except.error JsErr.typeErr ∧
      sanitizeListingInput rawBadPriceBand = Except.error JsErr.typeErr ∧
      sanitizeListingInput rawNullKeywords = Except.error (invalidCode "supportingKeywords") ∧
      sanitizeListingInput rawBadEntryKeywords =
        Except.error (invalidCode "supportingKeywords") ∧
      sanitizeListingInput { rawRingDish with personalization := JsValue.jnum 7 } =
        sanitizeListingInput { rawRingDish with personalization := JsValue.jbool false } ∧
      ∃ v, sanitizeListingInput rawBadBools = Except.ok v ∧ v.personalization = false ∧
        v.includeUkSpelling = false := by
  refine ⟨?_, ?_, ?_, ?_, ?_, ?_, ?_⟩
  · exact c9_wrong_type_errors.1 rawBadShopName (fun s h => by
      rw [show rawBadShopName.shopName = JsValue.jnum 3 from rfl] at h
      cases h)
  · exact c9_wrong_type_errors.2.1 rawBadPrimary
      ⟨str "Copper Pine Studio", by decide⟩ ⟨str "ring dish", by decide⟩
      ⟨str "bridal party", by decide⟩
      (fun s h => by
        rw [show rawBadPrimary.primaryKeyword = JsValue.jnum 7 from rfl] at h
        cases h)
  · exact c9_wrong_type_errors.2.2.1 rawBadPriceBand
      ⟨str "Copper Pine Studio", by decide⟩ ⟨str "ring dish", by decide⟩
      ⟨str "bridal party", by decide⟩
      ⟨str "personalized ring dish", by decide, by decide⟩
      ⟨[str "engagement gift", str "bridal shower gift", str "ceramic tray"],
        by decide, by decide⟩
      ⟨[str "ceramic", str "glaze", str "gold paint"], by decide⟩
      ⟨Tone.warm, by decide⟩
      (fun s h => by
        rw [show rawBadPriceBand.priceBand = JsValue.jbool true from rfl] at h
        cases h)
  · exact c9_wrong_type_errors.2.2.2.1 rawNullKeywords
      ⟨str "Copper Pine Studio", by decide⟩ ⟨str "ring dish", by decide⟩
      ⟨str "bridal party", by decide⟩ ⟨str "personalized ring dish", by decide, by decide⟩
      (fun items h => by
        rw [show rawNullKeywords.supportingKeywords = JsValue.jnull from rfl] at h
        cases h)
  · exact c9_wrong_type_errors.2.2.2.2.1 rawBadEntryKeywords
      [JsValue.jstr (str "engagement gift")] (JsValue.jnum 5) [] [str "engagement gift"]
      ⟨str "Copper Pine Studio", by decide⟩ ⟨str "ring dish", by decide⟩
      ⟨str "bridal party", by decide⟩ ⟨str "personalized ring dish", by decide, by decide⟩
      rfl
      (fun s h => by cases h)
      (by decide) (by decide)
  · exact (c9_wrong_type_errors.2.2.2.2.2.1 rawRingDish (JsValue.jnum 7)
      (fun h => by cases h)).1
  · refine ⟨{ inRingDish with personalization := false, includeUkSpelling := false },
      by decide, ?_, ?_⟩
    · exact (c9_wrong_type_errors.2.2.2.2.2.2 rawBadBools
        { inRingDish with personalization := false, includeUkSpelling := false }
        (by decide)).1
        (fun h => by
          rw [show rawBadBools.personalization = JsValue.jnum 7 from rfl] at h
          cases h)
    · exact (c9_wrong_type_errors.2.2.2.2.2.2 rawBadBools
        { inRingDish with personalization := false, includeUkSpelling := false }
        (by decide)).2
        (fun h => by
          rw [show rawBadBools.includeUkSpelling = JsValue.jnull from rfl] at h
          cases h)

/-! ## Title length -/

theorem splitBy_ne_nil (sep : Nat → Bool) (s : Str) : splitBy sep s ≠ [] := by
  cases s with
  | nil => simp [splitBy]
  | cons c rest =>
    unfold splitBy
    by_cases hc : sep c
    · rw [if_pos hc]
      simp
    · rw [if_neg hc]
      cases splitBy sep rest <;> simp

theorem capitalize_length (w : Str) : (capitalize w).length = w.length := by
  cases w <;> rfl

theorem joinSp_head_le (x : Str) (xs : List Str) : x.length ≤ (joinSp (x :: xs)).length := by
  cases xs with
  | nil => exact le_rfl
  | cons y ys => simp [joinSp]

theorem joinSp_tail_le (x : Str) (xs : List Str) :
    (joinSp xs).length ≤ (joinSp (x :: xs)).length := by
  cases xs with
  | nil => simp [joinSp]
  | cons y ys =>
    simp only [joinSp, List.length_append, List.length_cons]
    omega

theorem split_join (s : Str) : joinSp (splitBy (fun c => c == 32) s) = s := by
  induction s with
  | nil => rfl
  | cons c rest ih =>
    unfold splitBy
    by_cases hc : (c == 32) = true
    · rw [if_pos hc]
      have hne := splitBy_ne_nil (fun c => c == 32) rest
      cases hsp : splitBy (fun c => c == 32) rest with
      | nil => exact absurd hsp hne
      | cons t ts =>
        show joinSp ([] :: t :: ts) = c :: rest
        show [] ++ 32 :: joinSp (t :: ts) = c :: rest
        rw [hsp] at ih
        simp only [List.nil_append, ih]
        have : c = 32 := by simpa using hc
        rw [this]
    · rw [if_neg hc]
      have hne := splitBy_ne_nil (fun c => c == 32) rest
      cases hsp : splitBy (fun c => c == 32) rest with
      | nil => exact absurd hsp hne
      | cons t ts =>
        rw [hsp] at ih
        cases ts with
        | nil =>
          show joinSp [c :: t] = c :: rest
          show c :: t = c :: rest
          have : joinSp [t] = t := rfl
          rw [this] at ih
          rw [ih]
        | cons u us =>
          show joinSp ((c :: t) :: u :: us) = c :: rest
          show (c :: t) ++ 32 :: joinSp (u :: us) = c :: rest
          rw [List.cons_append]
          have : t ++ 32 :: joinSp (u :: us) = joinSp (t :: u :: us) := rfl
          rw [this, ih]

theorem joinSp_filter_le (q : Str → Bool) (ps : List Str) :
    (joinSp (List.filter q ps)).length ≤ (joinSp ps).length := by
  induction ps with
  | nil => exact le_rfl
  | cons p ps ih =>
    rw [List.filter_cons]
    by_cases hq : q p
    · rw [if_pos hq]
      cases hfil : List.filter q ps with
      | nil => exact joinSp_head_le p ps
      | cons f fs =>
        cases ps with
        | nil => simp at hfil
        | cons a as =>
          show ((p ++ 32 :: joinSp (f :: fs)).length ≤ (p ++ 32 :: joinSp (a :: as)).length)
          rw [← hfil]
          simp only [List.length_append, List.length_cons]
          have := ih
          omega
    · rw [if_neg hq]
      exact ih.trans (joinSp_tail_le p ps)

theorem joinSp_map_cap (ps : List Str) :
    (joinSp (List.map capitalize ps)).length = (joinSp ps).length := by
  induction ps with
  | nil => rfl
  | cons p ps ih =>
    cases ps with
    | nil => exact capitalize_length p
    | cons a as =>
      show ((capitalize p ++ 32 :: joinSp (List.map capitalize (a :: as))).length =
        (p ++ 32 :: joinSp (a :: as)).length)
      simp only [List.length_append, List.length_cons, capitalize_length]
      rw [show (joinSp (List.map capitalize (a :: as))).length = (joinSp (a :: as)).length
        from ih]

theorem toTitleCase_length_le (s : Str) : (toTitleCase s).length ≤ s.length := by
  unfold toTitleCase
  calc (joinSp (List.map capitalize
          (List.filter (fun w => !w.isEmpty) (splitBy (fun c => c == 32) s)))).length
      = (joinSp (List.filter (fun w => !w.isEmpty) (splitBy (fun c => c == 32) s))).length :=
        joinSp_map_cap _
    _ ≤ (joinSp (splitBy (fun c => c == 32) s)).length := joinSp_filter_le _ _
    _ = s.length := by rw [split_join]

theorem splitBy_head_ne {sep : Nat → Bool} {c : Nat} {rest : Str} (h : sep c = false) :
    ∃ t ts, splitBy sep (c :: rest) = (c :: t) :: ts ∧ splitBy sep rest = t :: ts := by
  have heq : splitBy sep (c :: rest) =
      (match splitBy sep rest with | [] => [[c]] | t :: ts => (c :: t) :: ts) := by
    rw [splitBy]
    rw [if_neg (by simp [h])]
  cases hsp : splitBy sep rest with
  | nil => exact absurd hsp (splitBy_ne_nil sep rest)
  | cons t ts =>
    rw [hsp] at heq
    exact ⟨t, ts, heq, rfl⟩

theorem toTitleCase_head {c : Nat} {rest : Str} (hc : (c == 32) = false) :
    ∃ w, toTitleCase (c :: rest) = ucChar c :: w := by
  obtain ⟨t, ts, hsp, _⟩ := @splitBy_head_ne (fun c => c == 32) c rest hc
  unfold toTitleCase
  rw [hsp]
  rw [List.filter_cons, if_pos (by simp)]
  rw [List.map_cons]
  show ∃ w, joinSp ((ucChar c :: t) :: List.map capitalize
    (List.filter (fun w => !w.isEmpty) ts)) = ucChar c :: w
  cases List.map capitalize (List.filter (fun w => !w.isEmpty) ts) with
  | nil => exact ⟨t, rfl⟩
  | cons x xs => exact ⟨t ++ 32 :: joinSp (x :: xs), rfl⟩

theorem ucChar_ws (c : Nat) : isWs (ucChar c) = isWs c := by
  unfold ucChar
  split
  · rename_i h
    have h1 : isWs (c - 32) = false := by
      rw [Bool.eq_false_iff]
      simp only [isWs, ne_eq, Bool.or_eq_true, beq_iff_eq]
      omega
    have h2 : isWs c = false := by
      rw [Bool.eq_false_iff]
      simp only [isWs, ne_eq, Bool.or_eq_true, beq_iff_eq]
      omega
    rw [h1, h2]
  · rfl

theorem mem_dropWhileWs {c : Nat} {l : Str} (h : c ∈ l) (hw : isWs c = false) :
    c ∈ l.dropWhile isWs := by
  have hsplit := List.takeWhile_append_dropWhile (p := isWs) (l := l)
  rw [← hsplit] at h
  rcases List.mem_append.mp h with h1 | h2
  · have := List.mem_takeWhile_imp h1
    rw [this] at hw
    cases hw
  · exact h2

theorem mem_jsTrim {c : Nat} {t : Str} (h : c ∈ t) (hw : isWs c = false) : c ∈ jsTrim t := by
  unfold jsTrim
  rw [List.mem_reverse]
  exact mem_dropWhileWs (by rw [List.mem_reverse]; exact mem_dropWhileWs h hw) hw

theorem compactLoop_le {title : Str} (h : title.length ≤ 140) (ps : List Str) :
    (compactLoop title ps).length ≤ 140 := by
  induction ps generalizing title with
  | nil => exact h
  | cons p ps ih =>
    unfold compactLoop
    by_cases hc : 140 <
        (if title.isEmpty then p else title ++ str " | " ++ p).length
    · rw [if_pos hc]
      exact h
    · rw [if_neg hc]
      exact ih (by omega)

theorem compactLoop_ne {title : Str} (h : title ≠ []) (ps : List Str) :
    compactLoop title ps ≠ [] := by
  induction ps generalizing title with
  | nil => exact h
  | cons p ps ih =>
    unfold compactLoop
    by_cases hc : 140 <
        (if title.isEmpty then p else title ++ str " | " ++ p).length
    · rw [if_pos hc]
      exact h
    · rw [if_neg hc]
      refine ih ?_
      rw [if_neg (by simpa [List.isEmpty_iff] using h)]
      simp [h]

/-- If the first segment trims to a nonempty string within the cap, the
compacted title stays within 140 characters. -/
theorem compactTitle_le (p1 : Str) (rest : List Str) (hne : jsTrim p1 ≠ [])
    (hlen : (jsTrim p1).length ≤ 140) : (compactTitle (p1 :: rest)).length ≤ 140 := by
  simp only [compactTitle, List.map_cons, List.filter_cons]
  rw [if_pos (show (!(jsTrim p1).isEmpty) = true by simp [List.isEmpty_iff, hne])]
  set F := List.filter (fun p => !p.isEmpty) (List.map jsTrim rest) with hF
  have hloop : compactLoop [] (jsTrim p1 :: F) = compactLoop (jsTrim p1) F := by
    rw [compactLoop]
    show (if 140 < (jsTrim p1).length then ([] : Str) else compactLoop (jsTrim p1) F) = _
    rw [if_neg (by omega)]
  rw [hloop]
  have hT_ne : compactLoop (jsTrim p1) F ≠ [] := compactLoop_ne hne F
  have hT_le : (compactLoop (jsTrim p1) F).length ≤ 140 := compactLoop_le hlen F
  rw [if_pos (show (!(compactLoop (jsTrim p1) F).isEmpty) = true by
    simp [List.isEmpty_iff, hT_ne])]
  exact hT_le

/-- A sanitized primary keyword trims to a nonempty title segment. -/
theorem primary_segment_ne {pk : Str} (hne : pk ≠ [])
    (hfix : normalizeKeyword pk = pk) : jsTrim (toTitleCase pk) ≠ [] := by
  cases hpx : pk with
  | nil => exact absurd hpx hne
  | cons c rest =>
    have htr : trimmedStr pk := by
      rw [← hfix]
      exact nk_trimmed pk
    have hcw : isWs c = false := by
      rw [hpx] at htr
      exact htr.1 c rfl
    have hc32 : (c == 32) = false := by
      rw [Bool.eq_false_iff]
      intro hcon
      have hc : c = 32 := by simpa using hcon
      rw [hc] at hcw
      cases hcw
    obtain ⟨w, hw⟩ := @toTitleCase_head c rest hc32
    have hmem : ucChar c ∈ toTitleCase (c :: rest) := by
      rw [hw]
      exact List.mem_cons_self _ _
    exact List.ne_nil_of_mem (mem_jsTrim hmem (by rw [ucChar_ws]; exact hcw))

/-- C1 counterexample: a sanitized input with `includeUkSpelling = true`
whose title packs occurrences of `color` close to the 140-character cap;
the British-spelling pass (applied after truncation) pushes the final
title to 153 characters. -/
theorem c1_counterexample :
    sanitizeListingInput rawColorful = Except.ok inColorful ∧
      140 < (buildListingPack inColorful (str "2026-01-01")).title.length :=
  ⟨by decide, by decide⟩

/-- C1 (amended): for every sanitized input the truncation keeps the title
within 140 characters whenever `includeUkSpelling` is false; with
`includeUkSpelling` true the post-truncation spelling substitutions can
push the title past the cap (see the counterexample). -/
theorem c1_title_bound_amended (input : ListingInput) (now : Str)
    (h : Sanitized input) (huk : input.includeUkSpelling = false) :
    (buildListingPack input now).title.length ≤ 140 := by
  obtain ⟨raw, hok⟩ := h
  obtain ⟨_, _, _, _, _, _, hpk_ne, hpk_len, hpk_fix, _⟩ := sanitize_ok_valid hok
  have htitle : (buildListingPack input now).title =
      britishSpelling (compactTitle
        (toTitleCase input.primaryKeyword ::
         [toTitleCase input.productType,
          (if input.personalization then str "Personalized" else str "Ready to Ship"),
          str "Gift for " ++ toTitleCase input.targetAudience,
          toTitleCase (match input.supportingKeywords with
            | [] => str "Etsy Bestseller"
            | k :: _ => if k.isEmpty then str "Etsy Bestseller" else k)]))
        input.includeUkSpelling := rfl
  rw [htitle, huk]
  show (compactTitle _).length ≤ 140
  exact compactTitle_le _ _ (primary_segment_ne hpk_ne hpk_fix)
    (le_trans (jsTrim_length_le _) (le_trans (toTitleCase_length_le _) (by omega)))

/-- Witness for C1 (amended) on the repository's test input. -/
theorem c1_title_bound_witness :
    (buildListingPack inRingDish (str "2026-01-01")).title.length ≤ 140 :=
  c1_title_bound_amended inRingDish (str "2026-01-01") ⟨rawRingDish, by decide⟩ rfl

/-- C10: for every sanitized input the pack has at least 6 tags (the six
fallback phrases guarantee it), the unclamped score lies in `[69, 93]`, so
the clamp in `roundScore` is inactive and the final score is in `[69, 93]`. -/
theorem c10_score_range (input : ListingInput) (now : Str) (h : Sanitized input) :
    6 ≤ (buildListingPack input now).tags.length ∧
      69 ≤ rawScore input ∧ rawScore input ≤ 93 ∧
      (buildListingPack input now).score = rawScore input ∧
      69 ≤ (buildListingPack input now).score ∧ (buildListingPack input now).score ≤ 93 := by
  obtain ⟨raw, hok⟩ := h
  obtain ⟨_, _, _, _, _, _, _, _, _, hsk_ne, _⟩ := sanitize_ok_valid hok
  have htags : (buildListingPack input now).tags = buildTags input := rfl
  have hge6 := buildTags_ge6 input
  have hle13 := (buildTags_ok input).1
  have hskpos : 1 ≤ input.supportingKeywords.length := List.length_pos.mpr hsk_ne
  have hbounds : 69 ≤ rawScore input ∧ rawScore input ≤ 93 := by
    unfold rawScore
    have h1 : (6 : Int) ≤ ((buildTags input).length : Int) := by exact_mod_cast hge6
    have h2 : ((buildTags input).length : Int) ≤ 13 := by exact_mod_cast hle13
    have h3 : (1 : Int) ≤ (input.supportingKeywords.length : Int) := by exact_mod_cast hskpos
    constructor <;> split_ifs <;> omega
  have hscore : (buildListingPack input now).score = roundScore (rawScore input) := rfl
  have hclamp : roundScore (rawScore input) = rawScore input := by
    unfold roundScore
    omega
  rw [htags, hscore, hclamp]
  exact ⟨hge6, hbounds.1, hbounds.2, rfl, hbounds.1, hbounds.2⟩

/-- Witness for C10 on the repository's test input. -/
theorem c10_score_range_witness :
    6 ≤ (buildListingPack inRingDish (str "2026-01-01")).tags.length ∧
      69 ≤ rawScore inRingDish ∧ rawScore inRingDish ≤ 93 ∧
      (buildListingPack inRingDish (str "2026-01-01")).score = rawScore inRingDish ∧
      69 ≤ (buildListingPack inRingDish (str "2026-01-01")).score ∧
      (buildListingPack inRingDish (str "2026-01-01")).score ≤ 93 :=
  c10_score_range inRingDish (str "2026-01-01") ⟨rawRingDish, by decide⟩
